import Mathlib

/-!
Verification of the patch-application engine of the portfolio API
(`api/v1/portfolio.py` and `services/portfolio_normalization.py`).

Python values flowing through the engine are modelled by the inductive
type `Val`; Python dicts are association lists that keep insertion order
(updating an existing key keeps its position, new keys are appended),
which matches CPython dict semantics.  Machine-level collaborators
(`json.loads`, `ast.literal_eval`, `str()`) are modelled by executable
functions over the fragment of values the engine actually handles; the
models are documented at their definitions.
-/

set_option maxHeartbeats 1000000

namespace Portfolio

/-- A path token: an object key or a non-negative list index
(`_path_to_tokens` produces `str` or `int` entries). -/
inductive Tok where
  | key (s : String)
  | idx (n : Nat)
deriving DecidableEq, Repr

/-- JSON-ish Python values handled by the engine: `None`, booleans,
integers, strings, lists and (ordered) dicts. -/
inductive Val where
  | none
  | bool (b : Bool)
  | int (n : Int)
  | str (s : String)
  | list (xs : List Val)
  | obj (fields : List (String × Val))

/-- Python truthiness for the values of `Val`. -/
def Val.truthy : Val → Bool
  | .none => false
  | .bool b => b
  | .int n => n != 0
  | .str s => !s.isEmpty
  | .list xs => !xs.isEmpty
  | .obj fs => !fs.isEmpty

/-- `a or b` on Python values: `a` when truthy, else `b`. -/
def Val.orV (a b : Val) : Val := if a.truthy then a else b

/-- Dict update `m[k] = v`: replace in place when `k` is present
(keeping its position), append otherwise — CPython dict semantics. -/
def assocSet {α β : Type} [DecidableEq α] : List (α × β) → α → β → List (α × β)
  | [], k, v => [(k, v)]
  | (k', v') :: rest, k, v =>
    if k' = k then (k', v) :: rest else (k', v') :: assocSet rest k v

/-- `d.get(k)`: `Option.none` when the key is absent. -/
def assocGet {α β : Type} [DecidableEq α] : List (α × β) → α → Option β
  | [], _ => Option.none
  | (k', v') :: rest, k => if k' = k then some v' else assocGet rest k

/-- `entry.get(k)` collapsing "absent" to Python `None`, as the
normalizers observe it. -/
def getV (fs : List (String × Val)) (k : String) : Val :=
  (assocGet fs k).getD Val.none

/-- One edit of the patch batch (`ApplySuggestionItem`): `field` path
string, `value`, `expectedCurrent` (absent modelled as `Val.none`). -/
structure Edit where
  field : String
  value : Val
  expectedCurrent : Val

/- ### Character and string helpers -/

/-- The `{` character (written via its code so that it never occurs
textually in a string literal). -/
def lbraceC : Char := Char.ofNat 123

/-- The `}` character. -/
def rbraceC : Char := Char.ofNat 125

/-- The apostrophe character. -/
def squoteC : Char := Char.ofNat 39

/-- ASCII decimal digit test — the model of `str.isdigit` on the paths
the engine handles. -/
def isDigitCh (c : Char) : Bool := 48 ≤ c.toNat && c.toNat ≤ 57

/-- ASCII whitespace test — the model of the default `str.strip` class. -/
def isSpaceCh (c : Char) : Bool :=
  c = ' ' || c = '\t' || c = '\n' || c = '\x0d' || c = '\x0b' || c = '\x0c'

/-- `s.strip()` on the character list. -/
def stripChars (cs : List Char) : List Char :=
  ((cs.dropWhile isSpaceCh).reverse.dropWhile isSpaceCh).reverse

/-- `s.strip()`. -/
def pyStrip (s : String) : String := ⟨stripChars s.data⟩

/-- `s.strip(set)` for an explicit character set (both ends). -/
def stripSetChars (p : Char → Bool) (cs : List Char) : List Char :=
  ((cs.dropWhile p).reverse.dropWhile p).reverse

/-- `s.lstrip(set)` for an explicit character set. -/
def lstripSetChars (p : Char → Bool) (cs : List Char) : List Char :=
  cs.dropWhile p

/-- `s.lower()` (ASCII model). -/
def pyLower (s : String) : String := ⟨s.data.map Char.toLower⟩

/-- Does `s` start with `pat` (`str.startswith`)? -/
def leadsWith : List Char → List Char → Bool
  | _, [] => true
  | [], _ :: _ => false
  | c :: cs, p :: ps => c = p && leadsWith cs ps

/-- Does `s` end with `pat` (`str.endswith`)? -/
def endsWithStr (s pat : String) : Bool :=
  leadsWith s.data.reverse pat.data.reverse

/-- Does `pat` occur as a substring of `s` (Python `in`)? -/
def containsSub (s pat : List Char) : Bool :=
  match s with
  | [] => leadsWith [] pat
  | _ :: cs => leadsWith s pat || containsSub cs pat

/-- Fuel-indexed scanning loop of `str.replace` (structural recursion so
that the kernel can evaluate it; the wrapper supplies ample fuel). -/
def replaceF : Nat → List Char → List Char → List Char → List Char
  | 0, s, _, _ => s
  | fuel + 1, s, pat, rep =>
    match s, pat with
    | s, [] => s
    | [], _ :: _ => []
    | c :: cs, p :: ps =>
      if leadsWith (c :: cs) (p :: ps) then
        rep ++ replaceF fuel (cs.drop ps.length) (p :: ps) rep
      else
        c :: replaceF fuel cs (p :: ps) rep

/-- `s.replace(pat, rep)`: leftmost, non-overlapping, all occurrences. -/
def replaceAllChars (s pat rep : List Char) : List Char :=
  replaceF (s.length + 1) s pat rep

/-- `s.replace(pat, rep)` on strings. -/
def pyReplace (s pat rep : String) : String :=
  ⟨replaceAllChars s.data pat.data rep.data⟩

/-- Decimal digit character for `d < 10`. -/
def digitCh (d : Nat) : Char :=
  match d with
  | 0 => '0' | 1 => '1' | 2 => '2' | 3 => '3' | 4 => '4'
  | 5 => '5' | 6 => '6' | 7 => '7' | 8 => '8' | _ => '9'

/-- Fuel-indexed digit expansion (structural recursion so that the
kernel can evaluate it; the wrapper supplies ample fuel). -/
def natDigitsF : Nat → Nat → List Char
  | 0, _ => []
  | fuel + 1, n =>
    if n < 10 then [digitCh n]
    else natDigitsF fuel (n / 10) ++ [digitCh (n % 10)]

/-- Decimal digits of a natural number, most significant first — the
model of Python `str(n)` / f-string formatting for `n ≥ 0`. -/
def natDigits (n : Nat) : List Char := natDigitsF (n + 1) n

/-- `str(n)` for a natural number. -/
def natToStr (n : Nat) : String := ⟨natDigits n⟩

/-- `str(n)` for an integer. -/
def intToStr (n : Int) : String :=
  if n < 0 then "-" ++ natToStr n.natAbs else natToStr n.natAbs

/-- `int(s)` on a string of decimal digits. -/
def parseDigits (cs : List Char) : Nat :=
  cs.foldl (fun a c => 10 * a + (c.toNat - 48)) 0

/- ### Path tokenizer and projector (`_path_to_tokens`,
`_field_path_to_mongo`, `_read_value_at_path`) -/

mutual

/-- The scanning loop of `_path_to_tokens` outside brackets: remaining
characters and the accumulated bare-word buffer.  `Option.none` models
the raised `ValueError`s. -/
def tokW : List Char → List Char → Option (List Tok)
  | [], buf => some (if buf.isEmpty then [] else [Tok.key ⟨buf⟩])
  | c :: rest, buf =>
    if c = '.' then
      (tokW rest []).map
        (fun ts => (if buf.isEmpty then [] else [Tok.key ⟨buf⟩]) ++ ts)
    else if c = '[' then
      (tokB rest []).map
        (fun ts => (if buf.isEmpty then [] else [Tok.key ⟨buf⟩]) ++ ts)
    else
      tokW rest (buf ++ [c])

/-- The scan between `[` and the first following `]` (the
`path.find("]", idx)` step): accumulate the enclosed characters, then
require a non-empty all-digit run.  Running out of characters is the
unmatched-bracket "Invalid field path" error; a bad run is the
"Invalid array index in field path" error. -/
def tokB : List Char → List Char → Option (List Tok)
  | [], _ => Option.none
  | c :: rest, content =>
    if c = ']' then
      if content.isEmpty || !content.all isDigitCh then Option.none
      else (tokW rest []).map (fun ts => Tok.idx (parseDigits content) :: ts)
    else
      tokB rest (content ++ [c])

end

/-- `_path_to_tokens(path)`; `Option.none` is the raised `ValueError`. -/
def path_to_tokens (path : String) : Option (List Tok) :=
  tokW path.data []

/-- `str(token)`: keys unchanged, indices in decimal. -/
def tok_str : Tok → String
  | .key s => s
  | .idx n => natToStr n

/-- `".".join(parts)`. -/
def join_dots : List String → String
  | [] => ""
  | [s] => s
  | s :: rest => s ++ "." ++ join_dots rest

/-- `_field_path_to_mongo(path)`: project the token list to a flat
dotted storage key. -/
def field_path_to_mongo (path : String) : Option String :=
  (path_to_tokens path).map (fun ts => join_dots (ts.map tok_str))

/-- The walking loop of `_read_value_at_path`: any mismatch returns
Python `None` (`Val.none`) without raising. -/
def readAtTokens : Val → List Tok → Val
  | data, [] => data
  | data, Tok.idx n :: rest =>
    match data with
    | .list xs =>
      match xs.get? n with
      | some v => readAtTokens v rest
      | Option.none => .none
    | _ => .none
  | data, Tok.key k :: rest =>
    match data with
    | .obj fs =>
      match assocGet fs k with
      | some v => readAtTokens v rest
      | Option.none => .none
    | _ => .none

/-- `_read_value_at_path(data, path)` (tokenizes, then walks). -/
def read_value_at_path (data : Val) (path : String) : Option Val :=
  (path_to_tokens path).map (readAtTokens data)

/- ### Models of the Python builtins used by the engine -/

/-- Join with `", "`. -/
def joinCommaSp : List String → String
  | [] => ""
  | [s] => s
  | s :: rest => s ++ ", " ++ joinCommaSp rest

/-- Repr-escape for characters inside a quoted string (model: backslash
and apostrophe escaped; other characters kept verbatim). -/
def reprEsc (s : String) : String :=
  pyReplace (pyReplace s "\\" "\\\\") (String.singleton squoteC)
    ("\\" ++ String.singleton squoteC)

/-- Model of Python `repr` on the values of `Val` (containers rendered
with `[`/`, `/`]` and `'key': value` members, scalars as `None`,
`True`, `False`, decimal integers and quoted strings). -/
def pyRepr : Val → String
  | .none => "None"
  | .bool true => "True"
  | .bool false => "False"
  | .int n => intToStr n
  | .str s => String.singleton squoteC ++ reprEsc s ++ String.singleton squoteC
  | .list xs =>
    "[" ++ joinCommaSp (xs.attach.map (fun x => pyRepr x.1)) ++ "]"
  | .obj fs =>
    String.singleton lbraceC
      ++ joinCommaSp (fs.attach.map (fun kv =>
          String.singleton squoteC ++ reprEsc kv.1.1 ++ String.singleton squoteC
            ++ ": " ++ pyRepr kv.1.2))
      ++ String.singleton rbraceC
decreasing_by
  · have h1 := List.sizeOf_lt_of_mem x.2
    have h2 : sizeOf (Val.list xs) = 1 + sizeOf xs := by simp
    omega
  · have h1 := List.sizeOf_lt_of_mem kv.2
    have h2 : sizeOf (Val.obj fs) = 1 + sizeOf fs := by simp
    have h3 : sizeOf kv.1.2 < sizeOf kv.1 := by
      obtain ⟨⟨k, v⟩, hkv⟩ := kv
      simp
    omega

/-- Model of Python `str()` on the values of `Val`: strings unchanged,
other values via `pyRepr`. -/
def pyStr : Val → String
  | .str s => s
  | v => pyRepr v

/-- ASCII letter test. -/
def isAlphaCh (c : Char) : Bool :=
  (65 ≤ c.toNat && c.toNat ≤ 90) || (97 ≤ c.toNat && c.toNat ≤ 122)

/-- ASCII alphanumeric test — the model of `str.isalnum`. -/
def isAlnumCh (c : Char) : Bool := isAlphaCh c || isDigitCh c

/-- `str.title` (ASCII model): the first letter of each alphabetic run
upper-cased, the rest lower-cased. -/
def titleChars : List Char → Bool → List Char
  | [], _ => []
  | c :: rest, prevAlpha =>
    if isAlphaCh c then
      (if prevAlpha then c.toLower else c.toUpper) :: titleChars rest true
    else
      c :: titleChars rest false

/-- `s.title()`. -/
def pyTitle (s : String) : String := ⟨titleChars s.data false⟩

/-- The fixpoint of the `while "--" in clean: clean = clean.replace("--", "-")`
loop of `_slugify` — every run of dashes collapses to a single dash —
computed in one pass tracking whether the previous character was a dash. -/
def collapseDR : List Char → Bool → List Char
  | [], _ => []
  | c :: rest, prevDash =>
    if c = '-' then
      if prevDash then collapseDR rest true else '-' :: collapseDR rest true
    else c :: collapseDR rest false

/-- Collapse every dash run to a single dash. -/
def collapseDashRuns (cs : List Char) : List Char := collapseDR cs false

/-- `_slugify(value)` from `services/portfolio_normalization.py`:
lower-case, non-alphanumerics to `-`, collapse dash runs, strip dashes. -/
def slugify (value : String) : String :=
  let clean := (value.data.map Char.toLower).map
    (fun c => if isAlnumCh c then c else '-')
  ⟨stripSetChars (· = '-') (collapseDashRuns clean)⟩

/-- `_strip_url_prefix(value)` (renamed here because of a lexical
restriction on the original name): strip an
`http://`/`https://`/`www.` lead from the trimmed value. -/
def strip_url_lead (value : String) : String :=
  let trimmed := pyStrip value
  if leadsWith trimmed.data "http://".data then ⟨trimmed.data.drop 7⟩
  else if leadsWith trimmed.data "https://".data then ⟨trimmed.data.drop 8⟩
  else if leadsWith trimmed.data "www.".data then ⟨trimmed.data.drop 4⟩
  else trimmed

/- ### Section constants (`api/v1/portfolio.py`) -/

/-- `ALLOWED_PORTFOLIO_PREFIXES` (the allow-list of root segments;
renamed here because of a lexical restriction on the original name). -/
def ALLOWED_ROOTS : List String :=
  ["navItems", "footer", "hero", "experience", "projects", "skillGroups",
   "education", "contacts", "theme", "animations", "metadata", "resumeUrl"]

/-- `_LIST_FIELDS`. -/
def LIST_FIELDS : List String :=
  ["contacts", "experience", "projects", "skillGroups", "education"]

/-- `_LIST_LEAF_SUFFIXES`. -/
def LIST_LEAF_SUFFIXES : List String :=
  [".highlights", ".items", ".tags", ".bio", ".outcomes", ".screenshots"]

/-- The legacy contact keys recognized by the expander. -/
def LEGACY_CONTACT_KEYS : List String :=
  ["email", "phone", "linkedin", "github", "x", "twitter"]

/- ### Model of `json.loads` / `ast.literal_eval`

Executable recursive-descent parsers over the value fragment of `Val`:
`null`/`None`, booleans, decimal integers, quoted strings with the basic
backslash escapes, arrays/lists and string-keyed objects.  Parsing
failure (`Option.none`) models the raised exception; inputs outside the
fragment (floats, `\u` escapes, tuples, …) also parse as `Option.none`. -/

/-- JSON insignificant whitespace. -/
def jsonSkipWs (cs : List Char) : List Char :=
  cs.dropWhile (fun c => c = ' ' || c = '\t' || c = '\n' || c = '\x0d')

/-- One escape character after a backslash inside a quoted string;
`q` is the quote character that may be escaped. -/
def escCh (q : Char) (c : Char) : Option Char :=
  if c = q then some q
  else if c = '\\' then some '\\'
  else if c = '/' then some '/'
  else if c = 'n' then some '\n'
  else if c = 't' then some '\t'
  else if c = 'r' then some '\x0d'
  else if c = 'b' then some '\x08'
  else if c = 'f' then some '\x0c'
  else Option.none

/-- Scan a quoted string body up to the closing quote `q`. -/
def scanQuoted (q : Char) : List Char → Option (List Char × List Char)
  | [] => Option.none
  | c :: rest =>
    if c = q then some ([], rest)
    else if c = '\\' then
      match rest with
      | [] => Option.none
      | e :: rest2 =>
        match escCh q e with
        | Option.none => Option.none
        | some d => (scanQuoted q rest2).map (fun p => (d :: p.1, p.2))
    else
      (scanQuoted q rest).map (fun p => (c :: p.1, p.2))

/-- Scan an optionally signed run of decimal digits as an integer;
fails when a float/exponent marker follows (outside the fragment). -/
def scanInt (cs : List Char) : Option (Int × List Char) :=
  let (neg, cs1) :=
    match cs with
    | '-' :: rest => (true, rest)
    | _ => (false, cs)
  let digits := cs1.takeWhile isDigitCh
  let rest := cs1.dropWhile isDigitCh
  if digits.isEmpty then Option.none
  else
    match rest with
    | c :: _ =>
      if c = '.' || c = 'e' || c = 'E' then Option.none
      else some (if neg then -(parseDigits digits : Int) else parseDigits digits, rest)
    | [] => some (if neg then -(parseDigits digits : Int) else parseDigits digits, [])

mutual

/-- Parse one JSON value (fuel-indexed; the top-level call supplies
more fuel than the input length, so fuel never runs out in practice). -/
def jsonVal : Nat → List Char → Option (Val × List Char)
  | 0, _ => Option.none
  | fuel + 1, cs =>
    match jsonSkipWs cs with
    | [] => Option.none
    | c :: rest =>
      if c = 'n' then
        if leadsWith rest "ull".data then some (Val.none, rest.drop 3) else Option.none
      else if c = 't' then
        if leadsWith rest "rue".data then some (Val.bool true, rest.drop 3) else Option.none
      else if c = 'f' then
        if leadsWith rest "alse".data then some (Val.bool false, rest.drop 4) else Option.none
      else if c = '"' then
        (scanQuoted '"' rest).map (fun p => (Val.str ⟨p.1⟩, p.2))
      else if c = '[' then
        match jsonSkipWs rest with
        | ']' :: tail => some (Val.list [], tail)
        | _ => (jsonElems fuel (c :: rest).tail).map (fun p => (Val.list p.1, p.2))
      else if c = lbraceC then
        match jsonSkipWs rest with
        | d :: tail =>
          if d = rbraceC then some (Val.obj [], tail)
          else (jsonMembers fuel rest).map (fun p => (Val.obj p.1, p.2))
        | [] => Option.none
      else if c = '-' || isDigitCh c then
        (scanInt (c :: rest)).map (fun p => (Val.int p.1, p.2))
      else Option.none

/-- Parse comma-separated array elements up to the closing `]`. -/
def jsonElems : Nat → List Char → Option (List Val × List Char)
  | 0, _ => Option.none
  | fuel + 1, cs =>
    match jsonVal fuel cs with
    | Option.none => Option.none
    | some (v, rest) =>
      match jsonSkipWs rest with
      | ',' :: tail => (jsonElems fuel tail).map (fun p => (v :: p.1, p.2))
      | ']' :: tail => some ([v], tail)
      | _ => Option.none

/-- Parse comma-separated `"key": value` members up to the closing brace. -/
def jsonMembers : Nat → List Char → Option (List (String × Val) × List Char)
  | 0, _ => Option.none
  | fuel + 1, cs =>
    match jsonSkipWs cs with
    | '"' :: rest =>
      match scanQuoted '"' rest with
      | Option.none => Option.none
      | some (k, rest2) =>
        match jsonSkipWs rest2 with
        | ':' :: rest3 =>
          match jsonVal fuel rest3 with
          | Option.none => Option.none
          | some (v, rest4) =>
            match jsonSkipWs rest4 with
            | ',' :: tail => (jsonMembers fuel tail).map (fun p => ((⟨k⟩, v) :: p.1, p.2))
            | d :: tail =>
              if d = rbraceC then some ([(⟨k⟩, v)], tail) else Option.none
            | [] => Option.none
        | _ => Option.none
    | _ => Option.none

end

/-- `json.loads(s)` (restricted to the fragment above): the whole input
must be consumed up to trailing whitespace. -/
def jsonLoads (s : String) : Option Val :=
  match jsonVal (s.length + 1) s.data with
  | some (v, rest) => if (jsonSkipWs rest).isEmpty then some v else Option.none
  | Option.none => Option.none

mutual

/-- Parse one Python literal (fuel-indexed): `None`/`True`/`False`,
integers, strings with either quote kind, and list displays. -/
def litVal : Nat → List Char → Option (Val × List Char)
  | 0, _ => Option.none
  | fuel + 1, cs =>
    match jsonSkipWs cs with
    | [] => Option.none
    | c :: rest =>
      if c = 'N' then
        if leadsWith rest "one".data then some (Val.none, rest.drop 3) else Option.none
      else if c = 'T' then
        if leadsWith rest "rue".data then some (Val.bool true, rest.drop 3) else Option.none
      else if c = 'F' then
        if leadsWith rest "alse".data then some (Val.bool false, rest.drop 4) else Option.none
      else if c = '"' then
        (scanQuoted '"' rest).map (fun p => (Val.str ⟨p.1⟩, p.2))
      else if c = squoteC then
        (scanQuoted squoteC rest).map (fun p => (Val.str ⟨p.1⟩, p.2))
      else if c = '[' then
        match jsonSkipWs rest with
        | ']' :: tail => some (Val.list [], tail)
        | _ => (litElems fuel rest).map (fun p => (Val.list p.1, p.2))
      else if c = '-' || isDigitCh c then
        (scanInt (c :: rest)).map (fun p => (Val.int p.1, p.2))
      else Option.none

/-- Parse comma-separated list elements up to the closing `]`. -/
def litElems : Nat → List Char → Option (List Val × List Char)
  | 0, _ => Option.none
  | fuel + 1, cs =>
    match litVal fuel cs with
    | Option.none => Option.none
    | some (v, rest) =>
      match jsonSkipWs rest with
      | ',' :: tail => (litElems fuel tail).map (fun p => (v :: p.1, p.2))
      | ']' :: tail => some ([v], tail)
      | _ => Option.none

end

/-- `ast.literal_eval(s)` (restricted to the fragment above). -/
def literalEval (s : String) : Option Val :=
  match litVal (s.length + 1) s.data with
  | some (v, rest) => if (jsonSkipWs rest).isEmpty then some v else Option.none
  | Option.none => Option.none

/- ### Value coercion (`_maybe_parse_json`, `_coerce_list_field`,
`_coerce_leaf_list_field`) -/

/-- `_maybe_parse_json(value)`: best-effort JSON parse of strings that
start with a brace or bracket; never raises. -/
def maybe_parse_json (value : Val) : Val :=
  match value with
  | .str s =>
    let trimmed := pyStrip s
    if leadsWith trimmed.data [lbraceC] || leadsWith trimmed.data ['['] then
      match jsonLoads trimmed with
      | some v => v
      | Option.none => value
    else value
  | v => v

/-- The substring between the first `[` and the last `]` (used by the
coercers' recovery step); `Option.none` when absent or ill-ordered. -/
def bracketSlice (s : String) : Option String :=
  match s.data.findIdx? (· = '['), (s.data.reverse.findIdx? (· = ']')) with
  | some st, some rev =>
    let en := s.data.length - 1 - rev
    if st < en then some ⟨(s.data.drop st).take (en + 1 - st)⟩ else Option.none
  | _, _ => Option.none

/-- `_coerce_list_field(field, value)`; `Except.error field` models the
raised `HTTPException` naming the field. -/
def coerce_list_field (field : String) (value : Val) : Except String Val :=
  if ¬ (field ∈ LIST_FIELDS) then .ok value
  else
    match value with
    | .str s =>
      let trimmed := pyStrip s
      if trimmed.isEmpty then .ok (.list [])
      else
        match jsonLoads trimmed with
        | some parsed => .ok parsed
        | Option.none =>
          match bracketSlice trimmed with
          | some candidate =>
            match jsonLoads candidate with
            | some v => .ok v
            | Option.none => .error field
          | Option.none => .error field
    | v => .ok v

/-- `_coerce_leaf_list_field(field, value)`. -/
def coerce_leaf_list_field (field : String) (value : Val) : Except String Val :=
  if ¬ LIST_LEAF_SUFFIXES.any (fun suf => endsWithStr field suf) then .ok value
  else
    match value with
    | .list xs => .ok (.list xs)
    | .str s =>
      let trimmed := pyStrip s
      if trimmed.isEmpty then .ok (.list [])
      else
        match jsonLoads trimmed with
        | some v => .ok v
        | Option.none =>
          match literalEval trimmed with
          | some (.list xs) => .ok (.list xs)
          | _ =>
            match bracketSlice trimmed with
            | some candidate =>
              match jsonLoads candidate with
              | some v => .ok v
              | Option.none =>
                match literalEval candidate with
                | some (.list xs) => .ok (.list xs)
                | _ => .error field
            | Option.none => .error field
    | v => .ok v

/- ### Entity normalizers (`services/portfolio_normalization.py`)

Each entry function takes the raw value; the `Option.none` result models
the `AttributeError`/`TypeError` Python raises when the value does not
support the attribute accesses the function performs (e.g. `.get` on a
non-dict, `.lower()` on a non-string). -/

/-- `normalize_contact_entry` on a dict. -/
def normalize_contact_obj (fs : List (String × Val)) : Option Val :=
  let label0 := getV fs "label"
  let value := getV fs "value"
  let href0 := getV fs "href"
  let method := getV fs "method"
  let label :=
    if !label0.truthy && method.truthy then
      Val.str (pyTitle (pyStrip (pyStr method)))
    else label0
  let hrefOpt : Option Val :=
    if !href0.truthy && value.truthy then
      if !label.truthy then some value
      else
        match label with
        | .str ls =>
          some (if pyLower ls = "email" then .str ("mailto:" ++ pyStr value)
                else if pyLower ls = "phone" then .str ("tel:" ++ pyStr value)
                else value)
        | _ => Option.none
    else some href0
  hrefOpt.map (fun href =>
    Val.obj [("label", label.orV (.str "")), ("value", value.orV (.str "")),
             ("href", href.orV (.str "")), ("icon", getV fs "icon")])

/-- `normalize_contact_entry(entry)`. -/
def normalize_contact_entry : Val → Option Val
  | .obj fs => normalize_contact_obj fs
  | _ => Option.none

/-- `normalize_experience_entry` on a dict (never raises). -/
def normalize_experience_obj (fs : List (String × Val)) : Val :=
  Val.obj
    [("date", (getV fs "date").orV ((getV fs "duration").orV (.str ""))),
     ("role", (getV fs "role").orV (.str "")),
     ("company", (getV fs "company").orV (.str "")),
     ("link", getV fs "link"),
     ("description", (getV fs "description").orV (getV fs "location")),
     ("highlights",
       (getV fs "highlights").orV ((getV fs "responsibilities").orV (.list []))),
     ("current", (assocGet fs "current").getD (.bool false))]

/-- `normalize_experience_entry(entry)`. -/
def normalize_experience_entry : Val → Option Val
  | .obj fs => some (normalize_experience_obj fs)
  | _ => Option.none

/-- `normalize_project_entry` on a dict; `_slugify` requires a string
title, so a truthy non-string title raises. -/
def normalize_project_obj (fs : List (String × Val)) : Option Val :=
  let title := (getV fs "title").orV (.str "")
  let link0 := (getV fs "link").orV (getV fs "url")
  let linkOpt : Option Val :=
    if !link0.truthy && title.truthy then
      match title with
      | .str t => some (Val.str ("/projects/" ++ slugify t))
      | _ => Option.none
    else some link0
  linkOpt.map (fun link =>
    let role_title := (getV fs "role").orV (.str "")
    let achievements := (getV fs "achievements").orV ((getV fs "outcomes").orV (.list []))
    let technologies := (getV fs "technologies").orV ((getV fs "tags").orV (.list []))
    Val.obj
      [("title", title),
       ("tags", technologies),
       ("description", (getV fs "description").orV (.str "")),
       ("link", link.orV (.str "")),
       ("caseStudy", Val.obj
         [("overview", (getV fs "overview").orV (.str "")),
          ("goal", (getV fs "goal").orV (.str "")),
          ("role", Val.obj
            [("title", role_title.orV (.str "Full-Stack Engineer")),
             ("bullets", .list [])]),
          ("screenshots", (getV fs "screenshots").orV (.list [])),
          ("outcomes", achievements)])])

/-- `normalize_project_entry(entry)` (unwraps a one-element list of a
dict before normalizing). -/
def normalize_project_entry : Val → Option Val
  | .list [.obj fs] => normalize_project_obj fs
  | .obj fs => normalize_project_obj fs
  | _ => Option.none

/-- `normalize_skill_group` on a dict. -/
def normalize_skill_obj (fs : List (String × Val)) : Val :=
  Val.obj
    [("title", (getV fs "title").orV ((getV fs "category").orV (.str ""))),
     ("items", (getV fs "items").orV ((getV fs "skills").orV (.list [])))]

/-- `normalize_skill_group(entry)` (unwraps a one-element list of a
dict before normalizing). -/
def normalize_skill_group : Val → Option Val
  | .list [.obj fs] => some (normalize_skill_obj fs)
  | .obj fs => some (normalize_skill_obj fs)
  | _ => Option.none

/-- `normalize_update(field, value)`: map the per-entity normalizer over
a whole-section list value. -/
def normalize_update (field : String) (value : Val) : Option Val :=
  if field = "contacts" then
    match value with
    | .list xs => (xs.mapM normalize_contact_entry).map .list
    | v => some v
  else if field = "experience" then
    match value with
    | .list xs => (xs.mapM normalize_experience_entry).map .list
    | v => some v
  else if field = "projects" then
    match value with
    | .list xs => (xs.mapM normalize_project_entry).map .list
    | v => some v
  else if field = "skillGroups" then
    match value with
    | .list xs => (xs.mapM normalize_skill_group).map .list
    | v => some v
  else some value

/- ### Legacy contact expansion (`_normalize_contact_legacy_value`,
`_expand_contact_legacy_updates`) -/

/-- `_normalize_contact_legacy_value(kind, value)`: the canonical
4-field contact dict derived from a legacy shorthand value. -/
def normalize_contact_legacy_value (kind : String) (value : String) : List (String × Val) :=
  let cleaned := pyStrip value
  if kind = "email" then
    [("label", .str "Email"), ("value", .str cleaned),
     ("href", .str (if cleaned ≠ "" then "mailto:" ++ cleaned else "")),
     ("icon", .str "email")]
  else if kind = "phone" then
    [("label", .str "Phone"), ("value", .str cleaned),
     ("href", .str (if cleaned ≠ "" then "tel:" ++ cleaned else "")),
     ("icon", .str "phone")]
  else if kind = "github" then
    let display := pyReplace (strip_url_lead cleaned) "github.com/" ""
    let handle : String := ⟨stripSetChars (· = '/') (stripChars display.data)⟩
    [("label", .str "GitHub"),
     ("value", .str (if handle ≠ "" then "github.com/" ++ handle else cleaned)),
     ("href", .str (if handle ≠ "" then "https://github.com/" ++ handle else "")),
     ("icon", .str "github")]
  else if kind = "linkedin" then
    let display := strip_url_lead cleaned
    let hv : String × String :=
      if containsSub display.data "linkedin.com".data then
        (pyReplace ("https://" ++ display) "https://https://" "https://",
         ⟨stripSetChars (· = '/') (pyReplace display "linkedin.com/in/" "").data⟩)
      else
        let handle := pyReplace display " " "-"
        (if handle ≠ "" then "https://linkedin.com/in/" ++ handle else "",
         if handle ≠ "" then handle else cleaned)
    [("label", .str "LinkedIn"),
     ("value", .str (if hv.2 ≠ "" then "linkedin.com/in/" ++ hv.2 else cleaned)),
     ("href", .str hv.1),
     ("icon", .str "linkedin")]
  else if kind = "x" ∨ kind = "twitter" then
    let display :=
      pyReplace (pyReplace (strip_url_lead cleaned) "twitter.com/" "") "x.com/" ""
    let handle : String := ⟨lstripSetChars (· = '@') (stripChars display.data)⟩
    [("label", .str "X"),
     ("value", .str (if handle ≠ "" then "x.com/" ++ handle else cleaned)),
     ("href", .str (if handle ≠ "" then "https://x.com/" ++ handle else "")),
     ("icon", .str "x")]
  else
    [("label", .str ""), ("value", .str cleaned), ("href", .str ""),
     ("icon", Val.none)]

/-- The canonical field string `contacts[i].<fk>` built by the expander. -/
def canonicalContact (i : Nat) (fk : String) : String :=
  "contacts[" ++ natToStr i ++ "]." ++ fk

/-- The canonical whole-item field string `root[i]` built by the
coalescer and matched by the pruners. -/
def canonicalIdx (root : String) (i : Nat) : String :=
  root ++ "[" ++ natToStr i ++ "]"

/-- Is this token list a legacy contact path `contacts[i].<legacyKey>`?
Returns the `(index, lowered key)` pair the expander groups by. -/
def legacyKeyOf (ts : List Tok) : Option (Nat × String) :=
  match ts with
  | [Tok.key c, Tok.idx i, t2] =>
    if c = "contacts" then
      let k := pyLower (tok_str t2)
      if k ∈ LEGACY_CONTACT_KEYS then some (i, k) else Option.none
    else Option.none
  | _ => Option.none

/-- The first loop of `_expand_contact_legacy_updates`: split the batch
into the legacy dict (keyed by `(index, key)`, last duplicate wins,
first-seen position kept) and the passed-through edits. -/
def expandLoop : List Edit → List ((Nat × String) × Edit) → List Edit →
    Option (List ((Nat × String) × Edit) × List Edit)
  | [], lf, ex => some (lf, ex)
  | e :: rest, lf, ex =>
    match path_to_tokens e.field with
    | Option.none => Option.none
    | some ts =>
      match legacyKeyOf ts with
      | some ik => expandLoop rest (assocSet lf ik e) ex
      | Option.none => expandLoop rest lf (ex ++ [e])

/-- The derived edits for one legacy `(index, key)` entry: one edit per
canonical contact field not already present verbatim in the batch. -/
def deriveLegacy (existing : List String) (ik : Nat × String) (e : Edit) : List Edit :=
  let normalized :=
    normalize_contact_legacy_value ik.2 (pyStr (if e.value.truthy then e.value else .str ""))
  ["label", "value", "href", "icon"].filterMap (fun fk =>
    let fp := canonicalContact ik.1 fk
    if fp ∈ existing then Option.none
    else some (Edit.mk fp (getV normalized fk) e.expectedCurrent))

/-- `_expand_contact_legacy_updates(updates)`. -/
def expand_contact_legacy_updates (updates : List Edit) : Option (List Edit) :=
  let existing := updates.map (·.field)
  match expandLoop updates [] [] with
  | Option.none => Option.none
  | some (lf, ex) =>
    some (lf.foldl (fun acc p => acc ++ deriveLegacy existing p.1 p.2) ex)

/- ### Redundancy pruners and child coalescer
(`_prune_root_updates_with_children`, `_prune_parent_index_updates`,
`_set_nested_dict_value`, `_coalesce_indexed_children`) -/

/-- First loop of `_prune_root_updates_with_children`: collect
`str(tokens[0])` of every edit with more than one token (the
`roots_with_children` set; the source also tracks a `root_updates` set
that it never reads, which is omitted here). -/
def rootsLoop : List Edit → List String → Option (List String)
  | [], acc => some acc
  | e :: rest, acc =>
    match path_to_tokens e.field with
    | Option.none => Option.none
    | some [] => rootsLoop rest acc
    | some [_] => rootsLoop rest acc
    | some (t :: _ :: _) =>
      rootsLoop rest (if tok_str t ∈ acc then acc else acc ++ [tok_str t])

/-- Second loop of `_prune_root_updates_with_children`: drop every edit
whose whole token list is a single string token found in the set. -/
def pruneRootLoop (roots : List String) : List Edit → Option (List Edit)
  | [] => some []
  | e :: rest =>
    match path_to_tokens e.field with
    | Option.none => Option.none
    | some ts =>
      match pruneRootLoop roots rest with
      | Option.none => Option.none
      | some out =>
        match ts with
        | [Tok.key s] => some (if s ∈ roots then out else e :: out)
        | _ => some (e :: out)

/-- `_prune_root_updates_with_children(updates)`. -/
def prune_root_updates_with_children (updates : List Edit) : Option (List Edit) :=
  match rootsLoop updates [] with
  | Option.none => Option.none
  | some roots =>
    if roots.isEmpty then some updates else pruneRootLoop roots updates

/-- The collection loop shared by `_prune_parent_index_updates` and
`_coalesce_indexed_children`: the field strings of all whole-item edits
`root[i]` on list sections. -/
def parentFieldsLoop : List Edit → List String → Option (List String)
  | [], acc => some acc
  | e :: rest, acc =>
    match path_to_tokens e.field with
    | Option.none => Option.none
    | some [Tok.key r, Tok.idx _] =>
      if r ∈ LIST_FIELDS then
        parentFieldsLoop rest (if e.field ∈ acc then acc else acc ++ [e.field])
      else parentFieldsLoop rest acc
    | some _ => parentFieldsLoop rest acc

/-- Filter loop of `_prune_parent_index_updates`: drop edits deeper than
a whole-item edit whose canonical field string is in the set. -/
def pruneParentLoop (pf : List String) : List Edit → Option (List Edit)
  | [] => some []
  | e :: rest =>
    match path_to_tokens e.field with
    | Option.none => Option.none
    | some ts =>
      match pruneParentLoop pf rest with
      | Option.none => Option.none
      | some out =>
        match ts with
        | Tok.key r :: Tok.idx i :: _ :: _ =>
          if r ∈ LIST_FIELDS ∧ canonicalIdx r i ∈ pf then some out
          else some (e :: out)
        | _ => some (e :: out)

/-- `_prune_parent_index_updates(updates)`. -/
def prune_parent_index_updates (updates : List Edit) : Option (List Edit) :=
  match parentFieldsLoop updates [] with
  | Option.none => Option.none
  | some pf =>
    if pf.isEmpty then some updates else pruneParentLoop pf updates

/-- `_set_nested_dict_value(target, keys, value)`: write a dotted key
path into a nested dict, making intermediate keys dicts. -/
def set_nested_dict_value (target : List (String × Val)) (keys : List String)
    (value : Val) : List (String × Val) :=
  match keys with
  | [] => target
  | [k] => assocSet target k value
  | k :: ks =>
    let sub :=
      match assocGet target k with
      | some (.obj fs) => fs
      | _ => []
    assocSet target k (.obj (set_nested_dict_value sub ks value))

/-- Main loop of `_coalesce_indexed_children`: group item-field edits
without a parent marker by `(root, index)`, passing everything else
through. -/
def coalesceLoop (pf : List String) :
    List Edit → List ((String × Nat) × List (String × Val)) → List Edit →
    Option (List ((String × Nat) × List (String × Val)) × List Edit)
  | [], grouped, kept => some (grouped, kept)
  | e :: rest, grouped, kept =>
    match path_to_tokens e.field with
    | Option.none => Option.none
    | some (Tok.key r :: Tok.idx i :: t :: ts') =>
      if r ∈ LIST_FIELDS then
        if canonicalIdx r i ∈ pf then coalesceLoop pf rest grouped kept
        else
          let keys := (t :: ts').map tok_str
          let group := (assocGet grouped (r, i)).getD []
          coalesceLoop pf rest
            (assocSet grouped (r, i) (set_nested_dict_value group keys e.value)) kept
      else coalesceLoop pf rest grouped (kept ++ [e])
    | some _ => coalesceLoop pf rest grouped (kept ++ [e])

/-- `_coalesce_indexed_children(updates)`. -/
def coalesce_indexed_children (updates : List Edit) : Option (List Edit) :=
  match parentFieldsLoop updates [] with
  | Option.none => Option.none
  | some pf =>
    match coalesceLoop pf updates [] [] with
    | Option.none => Option.none
    | some (grouped, kept) =>
      some (kept ++ grouped.map (fun g =>
        Edit.mk (canonicalIdx g.1.1 g.1.2) (.obj g.2) (.str "")))

/- ### Alias mapping, validation, indexed-list compilation
(`_map_field_aliases`, `_validate_update_fields`,
`_normalize_indexed_update`, `_apply_indexed_list_set`) -/

/-- `_map_field_aliases(field)`. -/
def map_field_aliases (field : String) : String :=
  if endsWithStr field ".organization" then pyReplace field ".organization" ".company"
  else if endsWithStr field ".position" then pyReplace field ".position" ".role"
  else if endsWithStr field ".name" && leadsWith field.data "projects[".data then
    pyReplace field ".name" ".title"
  else field

/-- The base segment checked by `_validate_update_fields`:
`path.split(".", 1)[0].split("[", 1)[0]`. -/
def validateBase (path : String) : String :=
  ⟨(path.data.takeWhile (· ≠ '.')).takeWhile (· ≠ '[')⟩

/-- `_validate_update_fields(paths)`; the error carries the offending
path. -/
def validate_update_fields : List String → Except String Unit
  | [] => .ok ()
  | p :: rest =>
    if p.isEmpty then .error p
    else if ¬ (validateBase p ∈ ALLOWED_ROOTS) then .error p
    else validate_update_fields rest

/-- `_normalize_indexed_update(field, value)`: unwrap a one-element
list-of-dict and normalize a whole-item dict per list section;
`Option.none` models a raised error. -/
def normalize_indexed_update (field : String) (value : Val) : Option Val :=
  match path_to_tokens field with
  | Option.none => Option.none
  | some [t0, Tok.idx _] =>
    let value1 :=
      match value with
      | .list [.obj fs] => Val.obj fs
      | v => v
    match t0 with
    | Tok.key r =>
      if r = "contacts" then
        match value1 with
        | .obj _ => normalize_contact_entry value1
        | v => some v
      else if r = "experience" then
        match value1 with
        | .obj _ => normalize_experience_entry value1
        | v => some v
      else if r = "projects" then
        match value1 with
        | .obj _ => normalize_project_entry value1
        | v => some v
      else if r = "skillGroups" then
        match value1 with
        | .obj _ => normalize_skill_group value1
        | v => some v
      else some value1
    | _ => some value1
  | some _ => some value

/-- The padding write of `_apply_indexed_list_set`: grow with empty
placeholder dicts up to index `i`, then set index `i`. -/
def pad_list_set (xs : List Val) (i : Nat) (v : Val) : List Val :=
  (xs ++ List.replicate (i + 1 - xs.length) (Val.obj [])).set i v

/-- `_apply_indexed_list_set(updates, current_data, field, value)`:
returns whether the edit was absorbed into a staged whole-array
replace, together with the updated mutation map. -/
def apply_indexed_list_set (updates : List (String × Val)) (current_data : Val)
    (field : String) (value : Val) : Option (Bool × List (String × Val)) :=
  match path_to_tokens field with
  | Option.none => Option.none
  | some [Tok.key root, Tok.idx index] =>
    if root ∈ LIST_FIELDS then
      match assocGet updates root with
      | some (.list xs) =>
        some (true, assocSet updates root (.list (pad_list_set xs index value)))
      | _ =>
        match read_value_at_path current_data root with
        | Option.none => Option.none
        | some (.list _) => some (false, updates)
        | some _ =>
          some (true, assocSet updates root (.list (pad_list_set [] index value)))
    else some (false, updates)
  | some _ => some (false, updates)

/- ### The apply endpoint (`apply_portfolio_suggestions`) -/

/-- The classes of pre-write failure the endpoint can raise. -/
inductive ApplyErr where
  | invalidPath
  | invalidField (path : String)
  | coercion (field : String)
  | typeError
deriving DecidableEq, Repr

/-- Store interactions of one request, in order of occurrence. -/
inductive StoreEvent where
  | readSnapshot
  | createEmpty
  | writeFields
deriving DecidableEq, Repr

/-- The dump of the empty portfolio created when no document exists
(`build_empty_portfolio_create(...)` / `PortfolioOut.model_dump()`):
every list section is an empty list. -/
def emptyPortfolioDoc (now : Nat) : Val :=
  Val.obj
    [("user_id", .str ""), ("navItems", .list []),
     ("footer", .obj [("copyright", .str ""), ("tagline", .str "")]),
     ("hero", .obj [("name", .str ""), ("title", .str ""), ("bio", .list []),
       ("availability", .obj [("label", .str ""), ("status", .str "")])]),
     ("experience", .list []), ("projects", .list []),
     ("skillGroups", .list []), ("education", .list []),
     ("contacts", .list []),
     ("theme", .obj [("text_primary", .str ""), ("text_secondary", .str ""),
       ("text_muted", .str ""), ("bg_primary", .str ""), ("bg_surface", .str ""),
       ("bg_surface_hover", .str ""), ("bg_divider", .str ""),
       ("accent_primary", .str ""), ("accent_muted", .str "")]),
     ("animations", .obj [("staggerChildren", .int 0), ("delayChildren", .int 0),
       ("duration", .int 0), ("ease", .str "")]),
     ("metadata", .obj [("title", .str ""), ("description", .str ""),
       ("author", .str "")]),
     ("resumeUrl", .str ""), ("id", Val.none),
     ("date_created", .int now), ("last_updated", .int now)]

/-- One iteration of the mutation-compilation loop: boolean coercion for
`.current` paths, list coercion, entity normalization, then either the
indexed-list staging or a direct dotted-key set. -/
def compileStep (current_data : Val) (updates : List (String × Val)) (e : Edit) :
    Except ApplyErr (List (String × Val)) :=
  let v0 :=
    match e.value with
    | .str s =>
      if endsWithStr e.field ".current" then
        let lowered := pyLower (pyStrip s)
        if lowered = "true" then Val.bool true
        else if lowered = "false" then Val.bool false
        else e.value
      else e.value
    | v => v
  match coerce_list_field e.field v0 with
  | .error f => .error (.coercion f)
  | .ok v1 =>
    match coerce_leaf_list_field e.field v1 with
    | .error f => .error (.coercion f)
    | .ok v2 =>
      match normalize_update e.field v2 with
      | Option.none => .error .typeError
      | some v3 =>
        match normalize_indexed_update e.field v3 with
        | Option.none => .error .typeError
        | some v4 =>
          match apply_indexed_list_set updates current_data e.field v4 with
          | Option.none => .error .invalidPath
          | some (true, updates') => .ok updates'
          | some (false, updates') =>
            match field_path_to_mongo e.field with
            | Option.none => .error .invalidPath
            | some k => .ok (assocSet updates' k v4)

/-- The whole compilation loop over the surviving edits. -/
def compile_items (current_data : Val) : List Edit → List (String × Val) →
    Except ApplyErr (List (String × Val))
  | [], updates => .ok updates
  | e :: rest, updates =>
    match compileStep current_data updates e with
    | .error err => .error err
    | .ok updates' => compile_items current_data rest updates'

/-- The pure edit-transformation pipeline of the endpoint, in source
order: legacy expansion, root-vs-children pruning, JSON parsing of
values plus alias mapping of fields, child coalescing, parent-vs-child
pruning. -/
def pipelineEdits (updates : List Edit) : Option (List Edit) :=
  match expand_contact_legacy_updates updates with
  | Option.none => Option.none
  | some u1 =>
    match prune_root_updates_with_children u1 with
    | Option.none => Option.none
    | some u2 =>
      let u3 := u2.map (fun e =>
        Edit.mk (map_field_aliases e.field) (maybe_parse_json e.value) e.expectedCurrent)
      match coalesce_indexed_children u3 with
      | Option.none => Option.none
      | some u4 => prune_parent_index_updates u4

/-- `apply_portfolio_suggestions(payload)`, against a store that holds
`some snapshot` or no document: returns the store events that occurred,
in order, and either the compiled mutation map or the raised error. -/
def apply_portfolio_suggestions (store : Option Val) (now : Nat)
    (updates0 : List Edit) : List StoreEvent × Except ApplyErr (List (String × Val)) :=
  match pipelineEdits updates0 with
  | Option.none => ([], .error .invalidPath)
  | some final =>
    match validate_update_fields (final.map (·.field)) with
    | .error p => ([], .error (.invalidField p))
    | .ok _ =>
      let events :=
        match store with
        | some _ => [StoreEvent.readSnapshot]
        | Option.none => [StoreEvent.readSnapshot, StoreEvent.createEmpty]
      let current_data := store.getD (emptyPortfolioDoc now)
      let final2 := final.map (fun e =>
        Edit.mk e.field e.value (maybe_parse_json e.expectedCurrent))
      match compile_items current_data final2 [] with
      | .error err => (events, .error err)
      | .ok m => (events ++ [StoreEvent.writeFields],
          .ok (assocSet m "last_updated" (Val.int now)))

/- ### Spec-side path model for the tokenize/project round trip -/

/-- Modelled from the spec: one segment of a well-formed path — a bare
key or a non-negative bracket index. -/
inductive Seg where
  | key (s : String)
  | idx (n : Nat)

/-- Modelled from the spec: a well-formed key is non-empty and contains
no dot or bracket. -/
def Seg.wf : Seg → Prop
  | .key s => s.data ≠ [] ∧ ∀ c ∈ s.data, ¬(c = '.' ∨ c = '[' ∨ c = ']')
  | .idx _ => True

/-- The token a segment denotes. -/
def Seg.tok : Seg → Tok
  | .key s => Tok.key s
  | .idx n => Tok.idx n

/-- Modelled from the spec: render a non-leading segment — keys joined
by dots, indices in brackets. -/
def Seg.renderTail : List Seg → String
  | [] => ""
  | .key s :: rest => "." ++ s ++ Seg.renderTail rest
  | .idx n :: rest => "[" ++ natToStr n ++ "]" ++ Seg.renderTail rest

/-- Modelled from the spec: the path string that a list of segments
denotes (a leading key has no dot before it). -/
def Seg.render : List Seg → String
  | [] => ""
  | .key s :: rest => s ++ Seg.renderTail rest
  | .idx n :: rest => "[" ++ natToStr n ++ "]" ++ Seg.renderTail rest

/- ### Derived notions used in the statements below -/

/-- A character the tokenizer treats as ordinary (accumulated into the
bare-word buffer): anything but `.` and `[`. -/
def isBareCh (c : Char) : Bool := !(c = '.' || c = '[')

/-- A well-formed key string: non-empty and all characters ordinary. -/
def wellKeyB (s : String) : Bool := !s.data.isEmpty && s.data.all isBareCh

/-- The buffer flush of the tokenizer: an empty buffer flushes to
nothing, a non-empty one to a key token. -/
def flushBuf (buf : List Char) : List Tok :=
  if buf.isEmpty then [] else [Tok.key ⟨buf⟩]

/-- `str(tokens[0])` of an edit, when it has more than one token — the
root the first pruning pass records as having children. -/
def multiTokenRoot (e : Edit) : Option String :=
  match path_to_tokens e.field with
  | some (t :: _ :: _) => some (tok_str t)
  | _ => Option.none

/-- Does the batch contain an edit with more than one token whose first
token stringifies to `s`? -/
def childExists (updates : List Edit) (s : String) : Bool :=
  updates.any (fun e => multiTokenRoot e == some s)

/-- Declarative drop condition of root-vs-children pruning: the edit is
a single key token whose root some deeper edit of the batch shares. -/
def dropRootB (updates : List Edit) (e : Edit) : Bool :=
  match path_to_tokens e.field with
  | some [Tok.key s] => childExists updates s
  | _ => false

/-- Is this edit an item-field edit strictly under `root[i]`? -/
def childEditB (root : String) (i : Nat) (e : Edit) : Bool :=
  match path_to_tokens e.field with
  | some (Tok.key r :: Tok.idx j :: _ :: _) => r = root && j = i
  | _ => false

/-- The dotted keys under `root[i]` of an item-field edit. -/
def restKeys (e : Edit) : List String :=
  match path_to_tokens e.field with
  | some ts => (ts.drop 2).map tok_str
  | Option.none => []

/-- The merged nested map the coalescer accumulates for `(root, i)`:
every item-field edit under `root[i]`, inserted in batch order. -/
def mergedValue (updates : List Edit) (root : String) (i : Nat) : List (String × Val) :=
  (updates.filter (childEditB root i)).foldl
    (fun m e => set_nested_dict_value m (restKeys e) e.value) []

/-- Is this edit passed through unchanged by the coalescer (i.e. not an
item-field edit of a list section)? -/
def keptB (e : Edit) : Bool :=
  match path_to_tokens e.field with
  | some (Tok.key r :: Tok.idx _ :: _ :: _) => !(decide (r ∈ LIST_FIELDS))
  | _ => true

/-- Is `k1` a path-segment prefix of `k2` (i.e. `k2 = k1 ++ "." ++ _`)? -/
def segPrefixB (k1 k2 : String) : Bool :=
  leadsWith k2.data (k1.data ++ ['.'])

/-- Key lookup on an object value (`Option.none` on non-objects or
absent keys) — used to state properties of normalized entities. -/
def valGet (v : Val) (k : String) : Option Val :=
  match v with
  | .obj fs => assocGet fs k
  | _ => Option.none

/-- The `(index, key)` pair of a legacy contact edit, when it is one. -/
def legacyOf (e : Edit) : Option (Nat × String) :=
  match path_to_tokens e.field with
  | some ts => legacyKeyOf ts
  | Option.none => Option.none

/-- The last edit of the batch carrying the legacy pair `ik` — the one
the expander's last-duplicate-wins dict retains. -/
def lastLegacy : List Edit → (Nat × String) → Option Edit
  | [], _ => Option.none
  | e :: rest, ik =>
    match lastLegacy rest ik with
    | some x => some x
    | Option.none => if legacyOf e = some ik then some e else Option.none

/- ## Theorems -/

/- ### Decimal rendering -/

theorem digitCh_toNat {d : Nat} (h : d < 10) : (digitCh d).toNat = 48 + d := by
  interval_cases d <;> rfl

theorem isDigitCh_digitCh {d : Nat} (h : d < 10) : isDigitCh (digitCh d) = true := by
  interval_cases d <;> rfl

theorem natDigitsF_congr : ∀ {n f1 f2 : Nat}, n < f1 → n < f2 →
    natDigitsF f1 n = natDigitsF f2 n := by
  intro n
  induction n using Nat.strong_induction_on with
  | _ n ih =>
    intro f1 f2 h1 h2
    match f1, f2 with
    | g1 + 1, g2 + 1 =>
      simp only [natDigitsF]
      by_cases h10 : n < 10
      · simp [h10]
      · simp only [if_neg h10]
        have hd : n / 10 < n := Nat.div_lt_self (by omega) (by omega)
        rw [ih (n / 10) hd (show n / 10 < g1 by omega) (show n / 10 < g2 by omega)]

theorem natDigits_eq (n : Nat) :
    natDigits n = if n < 10 then [digitCh n]
      else natDigits (n / 10) ++ [digitCh (n % 10)] := by
  show natDigitsF (n + 1) n = _
  simp only [natDigitsF]
  by_cases h10 : n < 10
  · simp [h10]
  · simp only [if_neg h10]
    have hd : n / 10 < n := Nat.div_lt_self (by omega) (by omega)
    rw [natDigitsF_congr (by omega) (Nat.lt_succ_self _)]
    rfl

theorem natDigits_ne_nil (n : Nat) : natDigits n ≠ [] := by
  rw [natDigits_eq]
  split <;> simp

theorem natDigits_all_digit (n : Nat) : ∀ c ∈ natDigits n, isDigitCh c = true := by
  induction n using Nat.strong_induction_on with
  | _ n ih =>
    rw [natDigits_eq]
    split
    · next h => simp [isDigitCh_digitCh h]
    · next h =>
      intro c hc
      rcases List.mem_append.mp hc with hm | hm
      · exact ih (n / 10) (Nat.div_lt_self (by omega) (by omega)) c hm
      · simp at hm
        subst hm
        exact isDigitCh_digitCh (Nat.mod_lt _ (by omega))

theorem parseDigits_append_one (cs : List Char) (c : Char) :
    parseDigits (cs ++ [c]) = 10 * parseDigits cs + (c.toNat - 48) := by
  simp [parseDigits, List.foldl_append]

theorem parseDigits_natDigits (n : Nat) : parseDigits (natDigits n) = n := by
  induction n using Nat.strong_induction_on with
  | _ n ih =>
    rw [natDigits_eq]
    split
    · next h =>
      have := digitCh_toNat h
      simp [parseDigits]
      omega
    · next h =>
      rw [parseDigits_append_one, ih (n / 10) (Nat.div_lt_self (by omega) (by omega)),
        digitCh_toNat (Nat.mod_lt _ (by omega))]
      omega

theorem isDigitCh_not_special {c : Char} (h : isDigitCh c = true) :
    c ≠ '.' ∧ c ≠ '[' ∧ c ≠ ']' := by
  refine ⟨?_, ?_, ?_⟩ <;> rintro rfl <;> exact absurd h (by decide)

theorem isDigitCh_bare {c : Char} (h : isDigitCh c = true) : isBareCh c = true := by
  obtain ⟨h1, h2, -⟩ := isDigitCh_not_special h
  simp [isBareCh, h1, h2]

/- ### Tokenizer structure -/

theorem isBareCh_elim {c : Char} (h : isBareCh c = true) : ¬ c = '.' ∧ ¬ c = '[' := by
  simp only [isBareCh, Bool.not_eq_true', Bool.or_eq_false_iff, decide_eq_false_iff_not] at h
  exact h

/-- Ordinary characters are accumulated into the word buffer. -/
theorem tokW_bare_append {cs : List Char} (h : ∀ c ∈ cs, isBareCh c = true) :
    ∀ t buf, tokW (cs ++ t) buf = tokW t (buf ++ cs) := by
  induction cs with
  | nil => intro t buf; simp
  | cons c cs ih =>
    intro t buf
    obtain ⟨h1, h2⟩ := isBareCh_elim (h c (by simp))
    rw [List.cons_append, tokW, if_neg h1, if_neg h2,
      ih (fun c hc => h c (by simp [hc])) t (buf ++ [c])]
    simp

/-- Non-`]` characters are accumulated into the bracket content. -/
theorem tokB_accum {ds : List Char} (h : ∀ c ∈ ds, c ≠ ']') :
    ∀ t content, tokB (ds ++ t) content = tokB t (content ++ ds) := by
  induction ds with
  | nil => intro t content; simp
  | cons d ds ih =>
    intro t content
    rw [List.cons_append, tokB, if_neg (h d (by simp)),
      ih (fun c hc => h c (by simp [hc])) t (content ++ [d])]
    simp

/-- A bracketed decimal index followed by the rest of the path. -/
theorem tokB_digits (i : Nat) (t : List Char) :
    tokB (natDigits i ++ ']' :: t) [] =
      (tokW t []).map (fun ts => Tok.idx i :: ts) := by
  rw [tokB_accum (fun c hc => (isDigitCh_not_special (natDigits_all_digit i c hc)).2.2)]
  rw [tokB, if_pos rfl, List.nil_append]
  have hne : ¬ (natDigits i).isEmpty := by
    simp [List.isEmpty_iff, natDigits_ne_nil]
  have hall : (natDigits i).all isDigitCh = true := by
    simp only [List.all_eq_true]
    exact natDigits_all_digit i
  rw [if_neg (by simp [hne, hall]), parseDigits_natDigits]

/-- Wellformedness of a path built from wellformed segments: the
tokenizer yields exactly the denoted tokens (tail form, arbitrary
pending buffer). -/
theorem tokW_renderTail {segs : List Seg} (h : ∀ sg ∈ segs, sg.wf) :
    ∀ buf, tokW (Seg.renderTail segs).data buf = some (flushBuf buf ++ segs.map Seg.tok) := by
  induction segs with
  | nil =>
    intro buf
    show tokW [] buf = _
    rw [tokW]
    simp [flushBuf]
  | cons sg rest ih =>
    intro buf
    have hrest : ∀ sg ∈ rest, sg.wf := fun sg hs => h sg (by simp [hs])
    match sg with
    | .key s =>
      obtain ⟨hne, hbare⟩ : s.data ≠ [] ∧ ∀ c ∈ s.data, ¬(c = '.' ∨ c = '[' ∨ c = ']') :=
        h (.key s) (by simp)
      show tokW ('.' :: (s.data ++ (Seg.renderTail rest).data)) buf = _
      rw [tokW, if_pos rfl]
      rw [tokW_bare_append (fun c hc => by
        have := hbare c hc
        simp only [isBareCh, Bool.not_eq_true', Bool.or_eq_false_iff, decide_eq_false_iff_not]
        exact ⟨fun hd => this (Or.inl hd), fun hd => this (Or.inr (Or.inl hd))⟩)]
      rw [List.nil_append, ih hrest s.data]
      have : flushBuf s.data = [Tok.key s] := by
        simp [flushBuf, List.isEmpty_iff, hne]
      rw [this]
      simp [Seg.tok, flushBuf, List.isEmpty_iff]
    | .idx n =>
      have hdata : (Seg.renderTail (Seg.idx n :: rest)).data
          = '[' :: (natDigits n ++ ']' :: (Seg.renderTail rest).data) := by
        show ((("[" ++ natToStr n) ++ "]") ++ Seg.renderTail rest).data = _
        simp [natToStr]
      rw [hdata, tokW, if_neg (by decide), if_pos rfl]
      rw [tokB_digits, ih hrest []]
      simp [flushBuf, Seg.tok]

/-- `tokenize(render(segs))` recovers exactly the denoted tokens. -/
theorem path_to_tokens_render {segs : List Seg} (h : ∀ sg ∈ segs, sg.wf) :
    path_to_tokens (Seg.render segs) = some (segs.map Seg.tok) := by
  match segs with
  | [] => rfl
  | .key s :: rest =>
    obtain ⟨hne, hbare⟩ : s.data ≠ [] ∧ ∀ c ∈ s.data, ¬(c = '.' ∨ c = '[' ∨ c = ']') :=
      h (.key s) (by simp)
    show tokW (s.data ++ (Seg.renderTail rest).data) [] = _
    rw [tokW_bare_append (fun c hc => by
      have := hbare c hc
      simp only [isBareCh, Bool.not_eq_true', Bool.or_eq_false_iff, decide_eq_false_iff_not]
      exact ⟨fun hd => this (Or.inl hd), fun hd => this (Or.inr (Or.inl hd))⟩)]
    rw [List.nil_append, tokW_renderTail (fun sg hs => h sg (by simp [hs])) s.data]
    have : flushBuf s.data = [Tok.key s] := by
      simp [flushBuf, List.isEmpty_iff, hne]
    rw [this]
    simp [Seg.tok]
  | .idx n :: rest =>
    have hdata : (Seg.render (Seg.idx n :: rest)).data
        = '[' :: (natDigits n ++ ']' :: (Seg.renderTail rest).data) := by
      show ((("[" ++ natToStr n) ++ "]") ++ Seg.renderTail rest).data = _
      simp [natToStr]
    show tokW (Seg.render (Seg.idx n :: rest)).data [] = _
    rw [hdata, tokW, if_neg (by decide), if_pos rfl]
    rw [tokB_digits, tokW_renderTail (fun sg hs => h sg (by simp [hs])) []]
    simp [flushBuf, Seg.tok]

/-- C9: for every path string built only from non-empty bare keys (no
dots or brackets inside a key) joined by dots and non-negative-integer
bracket indices, projecting its token list yields exactly the same path
with each bracketed index rewritten as a plain dot segment; e.g.
`project(tokenize("a[0].b")) = "a.0.b"`. -/
theorem c9_tokenize_project_round_trip :
    (∀ segs : List Seg, (∀ sg ∈ segs, sg.wf) →
      field_path_to_mongo (Seg.render segs)
        = some (join_dots (segs.map (fun sg => tok_str sg.tok))))
    ∧ field_path_to_mongo "a[0].b" = some "a.0.b" := by
  constructor
  · intro segs h
    rw [field_path_to_mongo, path_to_tokens_render h]
    simp [List.map_map]
    rfl
  · rfl

/-- Witness for C9 at the concrete path `a[0].b`. -/
theorem c9_tokenize_project_round_trip_witness :
    field_path_to_mongo (Seg.render [Seg.key "a", Seg.idx 0, Seg.key "b"])
      = some (join_dots ([Seg.key "a", Seg.idx 0, Seg.key "b"].map
          (fun sg => tok_str sg.tok))) :=
  c9_tokenize_project_round_trip.1 _ (by
    intro sg hsg
    simp only [List.mem_cons, List.not_mem_nil, or_false] at hsg
    rcases hsg with rfl | rfl | rfl
    · exact ⟨by decide, by decide⟩
    · trivial
    · exact ⟨by decide, by decide⟩)

/- ### Root-vs-children pruning -/

theorem rootsLoop_all_tokenize {updates : List Edit} {acc roots : List String}
    (h : rootsLoop updates acc = some roots) :
    ∀ e ∈ updates, ∃ ts, path_to_tokens e.field = some ts := by
  induction updates generalizing acc with
  | nil => intro e he; cases he
  | cons e0 rest ih =>
    intro e he
    rw [rootsLoop] at h
    rcases List.mem_cons.mp he with rfl | he
    · match hts : path_to_tokens e.field with
      | Option.none => rw [hts] at h; exact Option.noConfusion h
      | some ts => exact ⟨ts, rfl⟩
    · match hts : path_to_tokens e0.field with
      | Option.none => rw [hts] at h; exact Option.noConfusion h
      | some [] => rw [hts] at h; exact ih h e he
      | some [t] => rw [hts] at h; exact ih h e he
      | some (t :: t' :: ts') => rw [hts] at h; exact ih h e he

theorem rootsLoop_mem {updates : List Edit} {acc roots : List String}
    (h : rootsLoop updates acc = some roots) :
    ∀ s, s ∈ roots ↔ s ∈ acc ∨ ∃ e ∈ updates, multiTokenRoot e = some s := by
  induction updates generalizing acc with
  | nil =>
    intro s
    rw [rootsLoop] at h
    obtain rfl : acc = roots := by injection h
    simp
  | cons e0 rest ih =>
    intro s
    rw [rootsLoop] at h
    match hts : path_to_tokens e0.field with
    | Option.none => rw [hts] at h; exact Option.noConfusion h
    | some [] =>
      rw [hts] at h
      rw [ih h s]
      have hmt : multiTokenRoot e0 = Option.none := by
        rw [multiTokenRoot, hts]
      simp [hmt]
    | some [t] =>
      rw [hts] at h
      rw [ih h s]
      have hmt : multiTokenRoot e0 = Option.none := by
        rw [multiTokenRoot, hts]
      simp [hmt]
    | some (t :: t' :: ts') =>
      rw [hts] at h
      rw [ih h s]
      have hmt : multiTokenRoot e0 = some (tok_str t) := by
        rw [multiTokenRoot, hts]
      have hacc : s ∈ (if tok_str t ∈ acc then acc else acc ++ [tok_str t])
          ↔ (s ∈ acc ∨ s = tok_str t) := by
        split
        · next hin =>
          constructor
          · exact Or.inl
          · rintro (hs | rfl)
            · exact hs
            · exact hin
        · simp [List.mem_append]
      rw [hacc]
      constructor
      · rintro ((hs | rfl) | ⟨e, he, hmt'⟩)
        · exact Or.inl hs
        · exact Or.inr ⟨e0, List.mem_cons_self _ _, hmt⟩
        · exact Or.inr ⟨e, List.mem_cons_of_mem _ he, hmt'⟩
      · rintro (hs | ⟨e, he, hmt'⟩)
        · exact Or.inl (Or.inl hs)
        · rcases List.mem_cons.mp he with rfl | he
          · rw [hmt] at hmt'
            injection hmt' with h'
            exact Or.inl (Or.inr h'.symm)
          · exact Or.inr ⟨e, he, hmt'⟩

theorem pruneRootLoop_eq {roots : List String} :
    ∀ {updates out : List Edit}, pruneRootLoop roots updates = some out →
      out = updates.filter (fun e =>
        match path_to_tokens e.field with
        | some [Tok.key s] => !(decide (s ∈ roots))
        | _ => true) := by
  intro updates
  induction updates with
  | nil =>
    intro out h
    rw [pruneRootLoop] at h
    injection h with h
    simp [← h]
  | cons e rest ih =>
    intro out h
    rw [pruneRootLoop] at h
    match hts : path_to_tokens e.field with
    | Option.none => rw [hts] at h; exact Option.noConfusion h
    | some ts =>
      rw [hts] at h
      match hr : pruneRootLoop roots rest with
      | Option.none => rw [hr] at h; cases ts <;> simp_all
      | some out' =>
        rw [hr] at h
        have hout' := ih hr
        match ts with
        | [] =>
          injection h with h
          subst h
          simp [List.filter_cons, hts, hout']
        | [Tok.key s] =>
          by_cases hs : s ∈ roots
          · simp only [if_pos hs] at h
            injection h with h
            subst h
            simp [List.filter_cons, hts, hs, hout']
          · simp only [if_neg hs] at h
            injection h with h
            subst h
            simp [List.filter_cons, hts, hs, hout']
        | [Tok.idx n] =>
          injection h with h
          subst h
          simp [List.filter_cons, hts, hout']
        | t :: t' :: ts' =>
          cases t <;> (injection h with h; subst h; simp [List.filter_cons, hts, hout'])

theorem childExists_iff {updates : List Edit} {s : String} :
    childExists updates s = true ↔ ∃ e ∈ updates, multiTokenRoot e = some s := by
  simp [childExists, List.any_eq_true]

/-- The drop test agrees pointwise with the loop's test. -/
theorem prune_root_filter {updates out : List Edit}
    (h : prune_root_updates_with_children updates = some out) :
    out = updates.filter (fun e => !dropRootB updates e) := by
  rw [prune_root_updates_with_children] at h
  match hr : rootsLoop updates [] with
  | Option.none => rw [hr] at h; exact Option.noConfusion h
  | some roots =>
    rw [hr] at h
    have hmem := rootsLoop_mem hr
    have hpred : ∀ e ∈ updates,
        (fun e => match path_to_tokens e.field with
          | some [Tok.key s] => !(decide (s ∈ roots))
          | _ => true) e = !dropRootB updates e := by
      intro e _
      match hts : path_to_tokens e.field with
      | Option.none => simp only [dropRootB, hts]; rfl
      | some [] => simp only [dropRootB, hts]; rfl
      | some [Tok.key s] =>
        simp only [dropRootB, hts]
        have : decide (s ∈ roots) = childExists updates s := by
          by_cases hc : s ∈ roots
          · have := childExists_iff.mpr (by simpa using (hmem s).mp hc)
            simp [hc, this]
          · have hne : ¬ childExists updates s = true := fun hcc =>
              hc ((hmem s).mpr (Or.inr (childExists_iff.mp hcc)))
            simp [hc, Bool.not_eq_true] at hne ⊢
            simp [hne]
        rw [this]
      | some [Tok.idx n] => simp only [dropRootB, hts]; rfl
      | some (t :: t' :: ts') =>
        simp only [dropRootB, hts]
        cases t <;> rfl
    by_cases hempty : roots.isEmpty
    · simp only [if_pos hempty] at h
      injection h with h
      subst h
      have hall : ∀ e ∈ updates, (!dropRootB updates e) = true := by
        intro e _
        match hts : path_to_tokens e.field with
        | Option.none => simp [dropRootB, hts]
        | some [] => simp [dropRootB, hts]
        | some [Tok.key s] =>
          simp only [dropRootB, hts]
          have hne : ¬ childExists updates s = true := by
            intro hcc
            have := (hmem s).mpr (Or.inr (childExists_iff.mp hcc))
            rw [List.isEmpty_iff] at hempty
            simp [hempty] at this
          simp [Bool.not_eq_true] at hne
          simp [hne]
        | some [Tok.idx n] => simp [dropRootB, hts]
        | some (t :: t' :: ts') =>
          simp only [dropRootB, hts]
          cases t <;> rfl
      exact (List.filter_eq_self.mpr hall).symm
    · simp only [if_neg hempty] at h
      rw [pruneRootLoop_eq h]
      exact List.filter_congr hpred

/-- C5: root-vs-children pruning drops exactly the whole-section edits
whose section also has a deeper edit in the batch: the result equals the
batch filtered by that declarative condition; in particular, for every
root `R` with a deeper edit, every single-token edit on `R` is dropped,
and a batch with no multi-token edit is returned unmodified. -/
theorem c5_root_vs_children_pruning :
    ∀ updates out, prune_root_updates_with_children updates = some out →
      (out = updates.filter (fun e => !dropRootB updates e))
      ∧ (∀ R e, (∃ e' ∈ updates, multiTokenRoot e' = some R) → e ∈ updates →
          path_to_tokens e.field = some [Tok.key R] → e ∉ out)
      ∧ ((∀ e ∈ updates, multiTokenRoot e = Option.none) → out = updates) := by
  intro updates out h
  have hfilter := prune_root_filter h
  refine ⟨hfilter, ?_, ?_⟩
  · intro R e hchild hmem hts hout
    rw [hfilter] at hout
    have := (List.mem_filter.mp hout).2
    simp only [dropRootB, hts] at this
    rw [childExists_iff.mpr hchild] at this
    simp at this
  · intro hnone
    rw [hfilter]
    apply List.filter_eq_self.mpr
    intro e he
    match hts : path_to_tokens e.field with
    | Option.none => simp [dropRootB, hts]
    | some [] => simp [dropRootB, hts]
    | some [Tok.key s] =>
      simp only [dropRootB, hts]
      have hne : ¬ childExists updates s = true := by
        intro hcc
        obtain ⟨e', he', hmt⟩ := childExists_iff.mp hcc
        rw [hnone e' he'] at hmt
        exact Option.noConfusion hmt
      simp [Bool.not_eq_true] at hne
      simp [hne]
    | some [Tok.idx n] => simp [dropRootB, hts]
    | some (t :: t' :: ts') =>
      simp only [dropRootB, hts]
      cases t <;> rfl

/-- Witness for C5 at the spec's concrete batch: the whole-section
`theme` edit is dropped, only `theme.accent_primary` survives. -/
theorem c5_root_vs_children_pruning_witness :
    [Edit.mk "theme.accent_primary" (.str "#000") .none]
      = ([Edit.mk "theme" (.obj []) .none,
          Edit.mk "theme.accent_primary" (.str "#000") .none].filter
          (fun e => !dropRootB [Edit.mk "theme" (.obj []) .none,
            Edit.mk "theme.accent_primary" (.str "#000") .none] e)) :=
  (c5_root_vs_children_pruning
    [Edit.mk "theme" (.obj []) .none,
     Edit.mk "theme.accent_primary" (.str "#000") .none]
    [Edit.mk "theme.accent_primary" (.str "#000") .none]
    (by rfl)).1

/-- C4 counterexample: the accepted batch `[hero.name = "a",
hero.name.x = "b"]` compiles to a mutation map containing both
`hero.name` and `hero.name.x`, where the former is a path-segment
prefix of the latter — so the compiled map is not prefix-free. -/
theorem c4_counterexample :
    (apply_portfolio_suggestions (some (Val.obj [])) 0
        [Edit.mk "hero.name" (.str "a") .none, Edit.mk "hero.name.x" (.str "b") .none]).2
      = .ok [("hero.name", .str "a"), ("hero.name.x", .str "b"), ("last_updated", .int 0)]
    ∧ segPrefixB "hero.name" "hero.name.x" = true :=
  ⟨rfl, rfl⟩

/-- C4 amended: the prefix-freedom the pipeline actually guarantees is
at the section level — after root-vs-children pruning the surviving
batch never contains both a whole-section edit on `R` and a deeper edit
whose first token stringifies to `R`.  (Deeper prefix pairs survive to
the compiled map, see the counterexample.) -/
theorem c4_no_root_level_prefix_pair :
    ∀ updates out R e1 e2, prune_root_updates_with_children updates = some out →
      e1 ∈ out → e2 ∈ out → path_to_tokens e1.field = some [Tok.key R] →
      multiTokenRoot e2 ≠ some R := by
  intro updates out R e1 e2 h h1 h2 hts hmt
  have hfilter := prune_root_filter h
  rw [hfilter] at h1 h2
  have h2mem : e2 ∈ updates := (List.mem_filter.mp h2).1
  have h1drop := (List.mem_filter.mp h1).2
  simp only [dropRootB, hts] at h1drop
  rw [childExists_iff.mpr ⟨e2, h2mem, hmt⟩] at h1drop
  simp at h1drop

/-- Witness for the amended C4 at a concrete surviving batch. -/
theorem c4_no_root_level_prefix_pair_witness :
    multiTokenRoot (Edit.mk "hero" (.obj []) .none) ≠ some "hero" :=
  c4_no_root_level_prefix_pair
    [Edit.mk "hero" (.obj []) .none]
    [Edit.mk "hero" (.obj []) .none]
    "hero"
    (Edit.mk "hero" (.obj []) .none)
    (Edit.mk "hero" (.obj []) .none)
    (by rfl) (by simp) (by simp) (by rfl)

/- ### Tokenizer-produced keys are wellformed -/

theorem flush_keys {buf : List Char} (hbuf : ∀ c ∈ buf, isBareCh c = true) :
    ∀ s, Tok.key s ∈ (if buf.isEmpty then ([] : List Tok) else [Tok.key ⟨buf⟩]) →
      wellKeyB s = true := by
  intro s hs
  by_cases hb : buf.isEmpty
  · simp [hb] at hs
  · simp only [hb, if_false] at hs
    rcases List.mem_cons.mp hs with heq | hmem
    · injection heq with heq
      subst heq
      show (!(String.mk buf).data.isEmpty && (String.mk buf).data.all isBareCh) = true
      have hb' : buf.isEmpty = false := by simpa using hb
      simp only [Bool.and_eq_true, Bool.not_eq_true', List.all_eq_true]
      exact ⟨hb', hbuf⟩
    · cases hmem

theorem tokW_nil_keys {buf ts} (hbuf : ∀ c ∈ buf, isBareCh c = true)
    (h : tokW [] buf = some ts) :
    ∀ s, Tok.key s ∈ ts → wellKeyB s = true := by
  rw [tokW] at h
  injection h with h
  subst h
  exact flush_keys hbuf

theorem tok_keys_wf (n : Nat) : ∀ cs : List Char, cs.length ≤ n →
    (∀ buf ts, (∀ c ∈ buf, isBareCh c = true) → tokW cs buf = some ts →
      ∀ s, Tok.key s ∈ ts → wellKeyB s = true)
    ∧ (∀ content ts, tokB cs content = some ts →
      ∀ s, Tok.key s ∈ ts → wellKeyB s = true) := by
  induction n with
  | zero =>
    intro cs hlen
    have hnil : cs = [] := List.length_eq_zero.mp (Nat.le_zero.mp hlen)
    subst hnil
    refine ⟨fun buf ts hbuf h => tokW_nil_keys hbuf h, fun content ts h => ?_⟩
    rw [tokB] at h
    exact absurd h (by simp)
  | succ n ih =>
    intro cs hlen
    match cs with
    | [] =>
      refine ⟨fun buf ts hbuf h => tokW_nil_keys hbuf h, fun content ts h => ?_⟩
      rw [tokB] at h
      exact absurd h (by simp)
    | c :: rest =>
      have hrest : rest.length ≤ n := by
        simp only [List.length_cons] at hlen
        omega
      constructor
      · intro buf ts hbuf h s hs
        rw [tokW] at h
        by_cases hdot : c = '.'
        · rw [if_pos hdot, Option.map_eq_some'] at h
          obtain ⟨ts', hts', hmap⟩ := h
          subst hmap
          rcases List.mem_append.mp hs with hm | hm
          · exact flush_keys hbuf s hm
          · exact (ih rest hrest).1 [] ts' (by simp) hts' s hm
        · rw [if_neg hdot] at h
          by_cases hbr : c = '['
          · rw [if_pos hbr, Option.map_eq_some'] at h
            obtain ⟨ts', hts', hmap⟩ := h
            subst hmap
            rcases List.mem_append.mp hs with hm | hm
            · exact flush_keys hbuf s hm
            · exact (ih rest hrest).2 [] ts' hts' s hm
          · rw [if_neg hbr] at h
            have hc : isBareCh c = true := by simp [isBareCh, hdot, hbr]
            refine (ih rest hrest).1 (buf ++ [c]) ts ?_ h s hs
            intro d hd
            rcases List.mem_append.mp hd with hm | hm
            · exact hbuf d hm
            · simp at hm
              subst hm
              exact hc
      · intro content ts h s hs
        rw [tokB] at h
        by_cases hcl : c = ']'
        · rw [if_pos hcl] at h
          by_cases hbad : content.isEmpty || !content.all isDigitCh
          · rw [if_pos hbad] at h
            exact absurd h (by simp)
          · rw [if_neg hbad, Option.map_eq_some'] at h
            obtain ⟨ts', hts', hmap⟩ := h
            subst hmap
            rcases List.mem_cons.mp hs with heq | hm
            · exact absurd heq (by simp)
            · exact (ih rest hrest).1 [] ts' (by simp) hts' s hm
        · rw [if_neg hcl] at h
          exact (ih rest hrest).2 (content ++ [c]) ts h s hs

/-- Every key token the tokenizer produces is a non-empty bare word. -/
theorem path_to_tokens_keys {f : String} {ts : List Tok}
    (h : path_to_tokens f = some ts) :
    ∀ s, Tok.key s ∈ ts → wellKeyB s = true :=
  (tok_keys_wf f.data.length f.data le_rfl).1 [] ts (by simp) h

/-- A wellformed key tokenizes to itself. -/
theorem path_to_tokens_wellKey {r : String} (hr : wellKeyB r = true) :
    path_to_tokens r = some [Tok.key r] := by
  obtain ⟨hne, hbare⟩ : r.data.isEmpty = false ∧ ∀ c ∈ r.data, isBareCh c = true := by
    simpa [wellKeyB, Bool.and_eq_true, Bool.not_eq_true', List.all_eq_true] using hr
  show tokW r.data [] = _
  have happ := tokW_bare_append hbare [] []
  rw [List.append_nil] at happ
  rw [happ, tokW, List.nil_append, hne]
  rfl

/-- The canonical field `root[i]` tokenizes to the whole-item tokens. -/
theorem path_to_tokens_canonicalIdx {r : String} (hr : wellKeyB r = true) (i : Nat) :
    path_to_tokens (canonicalIdx r i) = some [Tok.key r, Tok.idx i] := by
  obtain ⟨hne, hbare⟩ : r.data.isEmpty = false ∧ ∀ c ∈ r.data, isBareCh c = true := by
    simpa [wellKeyB, Bool.and_eq_true, Bool.not_eq_true', List.all_eq_true] using hr
  have hdata : (canonicalIdx r i).data = r.data ++ ('[' :: (natDigits i ++ [']'])) := by
    show (((r ++ "[") ++ natToStr i) ++ "]").data = _
    simp [natToStr]
  show tokW (canonicalIdx r i).data [] = _
  rw [hdata, tokW_bare_append hbare, List.nil_append, tokW,
    if_neg (by decide), if_pos rfl]
  have : natDigits i ++ [']'] = natDigits i ++ ']' :: [] := rfl
  rw [this, tokB_digits, tokW]
  simp only [List.isEmpty_nil, if_true, Option.map_some']
  rw [hne]
  rfl

/- ### Indexed-set compilation (C8) -/

/-- C8: for a whole-item edit `root[i]` on a list section with no staged
whole-array replace for `root`: when the snapshot's value at `root` is
not a list, the compiler stages a whole-array replace of length `i+1`
with empty placeholder objects below `i` and the value at `i`; when the
snapshot already holds a list, the edit is not absorbed and compiles to
the direct dotted key `root.i`; in particular `projects[3]` against a
snapshot without a `projects` list stages a 4-element padded array. -/
theorem c8_indexed_set_compilation :
    (∀ updates current field value root i,
      path_to_tokens field = some [Tok.key root, Tok.idx i] →
      root ∈ LIST_FIELDS →
      (∀ xs, assocGet updates root ≠ some (Val.list xs)) →
      ((∀ xs, read_value_at_path current root ≠ some (Val.list xs)) →
        apply_indexed_list_set updates current field value
          = some (true, assocSet updates root
              (.list (List.replicate i (Val.obj []) ++ [value]))))
      ∧ (∀ xs, read_value_at_path current root = some (Val.list xs) →
        apply_indexed_list_set updates current field value = some (false, updates)
          ∧ field_path_to_mongo field = some (root ++ "." ++ natToStr i)))
    ∧ apply_indexed_list_set [] (Val.obj []) "projects[3]" (Val.obj [("title", .str "P")])
      = some (true, [("projects", .list [.obj [], .obj [], .obj [],
          .obj [("title", .str "P")]])]) := by
  constructor
  · intro updates current field value root i hts hroot hstaged
    have hwk : wellKeyB root = true := path_to_tokens_keys hts root (by simp)
    have hread : read_value_at_path current root
        = some (readAtTokens current [Tok.key root]) := by
      rw [read_value_at_path, path_to_tokens_wellKey hwk]
      rfl
    have hpad : pad_list_set [] i value
        = List.replicate i (Val.obj []) ++ [value] := by
      rw [pad_list_set]
      simp only [List.nil_append, List.length_nil, Nat.sub_zero]
      have : List.replicate (i + 1) (Val.obj []) =
          List.replicate i (Val.obj []) ++ [Val.obj []] := by
        rw [← List.replicate_succ']
      rw [this, List.set_append_right _ _ (by simp)]
      simp
    constructor
    · intro hsnap
      rw [apply_indexed_list_set, hts]
      simp only []
      rw [if_pos hroot]
      split
      all_goals first
        | (rw [hpad])
        | (rename_i xs heq
           exact absurd heq (hstaged xs))
        | (rename_i x xs heq
           exact absurd heq (hsnap xs))
        | (rename_i heq
           rw [hread] at heq
           exact Option.noConfusion heq)
        | (rename_i x heq
           rw [hread] at heq
           exact Option.noConfusion heq)
    · intro xs hlist
      constructor
      · rw [apply_indexed_list_set, hts]
        simp only []
        rw [if_pos hroot]
        split
        all_goals first
          | rfl
          | (rename_i xs' heq
             exact absurd heq (hstaged xs'))
          | (rename_i heq
             rw [hlist] at heq
             exact Option.noConfusion heq)
          | (rename_i a b hne heq
             rw [hlist] at heq
             injection heq with heq
             exact absurd (hne xs heq.symm) id)
      · rw [field_path_to_mongo, hts]
        rfl
  · rfl

/-- Witness for C8: `projects[3]` against a snapshot without a
`projects` list stages the padded 4-element array. -/
theorem c8_indexed_set_compilation_witness :
    apply_indexed_list_set [] (Val.obj []) "projects[3]" (Val.obj [("title", .str "P")])
      = some (true, assocSet [] "projects"
          (.list (List.replicate 3 (Val.obj []) ++ [Val.obj [("title", .str "P")]]))) :=
  (c8_indexed_set_compilation.1 [] (Val.obj []) "projects[3]"
      (Val.obj [("title", .str "P")]) "projects" 3 (by rfl) (by decide)
      (fun xs h => Option.noConfusion h)).1
    (fun xs h => by injection h with h; exact Val.noConfusion h)

/-- C10: for every edit whose field is exactly a list-section root or
ends in a list-leaf suffix, a string value that is empty or
whitespace-only is coerced to the empty list `[]` by the two coercers in
sequence, rather than raising the unparsable-list error. -/
theorem c10_whitespace_coerces_to_empty_list :
    ∀ field s, ((field ∈ LIST_FIELDS)
        ∨ (∃ suf ∈ LIST_LEAF_SUFFIXES, endsWithStr field suf = true)) →
      pyStrip s = "" →
      (coerce_list_field field (.str s)).bind (coerce_leaf_list_field field)
        = .ok (.list []) := by
  intro field s hfield hstrip
  have hempty : (pyStrip s).isEmpty = true := by
    rw [hstrip]
    rfl
  by_cases hin : field ∈ LIST_FIELDS
  · have h1 : coerce_list_field field (.str s) = .ok (.list []) := by
      rw [coerce_list_field, if_neg (by simpa using hin), if_pos hempty]
    rw [h1]
    show coerce_leaf_list_field field (.list []) = .ok (.list [])
    rw [coerce_leaf_list_field]
    split
    · rfl
    · rfl
  · obtain ⟨suf, hsuf, hends⟩ := hfield.resolve_left hin
    have h1 : coerce_list_field field (.str s) = .ok (.str s) := by
      rw [coerce_list_field, if_pos (by simpa using hin)]
    rw [h1]
    show coerce_leaf_list_field field (.str s) = .ok (.list [])
    have hany : LIST_LEAF_SUFFIXES.any (fun suf => endsWithStr field suf) = true :=
      List.any_eq_true.mpr ⟨suf, hsuf, hends⟩
    rw [coerce_leaf_list_field, if_neg (by simp [hany]), if_pos hempty]

/-- Witness for C10: the `contacts` root with a whitespace-only value. -/
theorem c10_whitespace_coerces_to_empty_list_witness :
    (coerce_list_field "contacts" (.str "  ")).bind (coerce_leaf_list_field "contacts")
      = .ok (.list []) :=
  c10_whitespace_coerces_to_empty_list "contacts" "  " (Or.inl (by decide)) (by rfl)

/- ### Project-entity normalization (C3) -/

/-- C3 counterexample: when an object supplies both `tags` and
`technologies` (and both `outcomes` and `achievements`), the synonyms
`technologies`/`achievements` win — the supplied `tags`/`outcomes` are
discarded, contradicting the claimed fallback direction. -/
theorem c3_counterexample :
    normalize_project_entry (Val.obj
        [("title", .str "T"), ("tags", .list [.str "a"]),
         ("technologies", .list [.str "b"]), ("outcomes", .list [.str "o"]),
         ("achievements", .list [.str "h"])])
      = some (Val.obj
        [("title", .str "T"), ("tags", .list [.str "b"]),
         ("description", .str ""), ("link", .str "/projects/t"),
         ("caseStudy", Val.obj
           [("overview", .str ""), ("goal", .str ""),
            ("role", Val.obj [("title", .str "Full-Stack Engineer"),
              ("bullets", .list [])]),
            ("screenshots", .list []), ("outcomes", .list [.str "h"])])])
    ∧ Val.list [.str "b"] ≠ Val.list [.str "a"]
    ∧ Val.list [.str "h"] ≠ Val.list [.str "o"] :=
  ⟨rfl, by simp, by simp⟩

/-- C3 amended: the canonical project entity has `tags` taken from the
`technologies` synonym with precedence over a supplied `tags` (which is
used only when `technologies` is absent/falsy), `caseStudy.outcomes`
taken from the `achievements` synonym with precedence over a supplied
`outcomes`, `caseStudy.role.title` defaulting to the fixed placeholder
when `role` is falsy, and `link` defaulting to a slug of the title under
the fixed prefix when both `link` and the `url` synonym are
absent/falsy and the title is a non-empty string. -/
theorem c3_amended_project_defaults :
    ∀ fs out, normalize_project_entry (Val.obj fs) = some out →
      valGet out "tags"
        = some ((getV fs "technologies").orV ((getV fs "tags").orV (.list [])))
      ∧ ((valGet out "caseStudy").bind (fun cs => valGet cs "outcomes"))
        = some ((getV fs "achievements").orV ((getV fs "outcomes").orV (.list [])))
      ∧ ((getV fs "role").truthy = false →
          ((valGet out "caseStudy").bind (fun cs =>
            (valGet cs "role").bind (fun r => valGet r "title")))
            = some (.str "Full-Stack Engineer"))
      ∧ (∀ t : String, getV fs "title" = .str t → t ≠ "" →
          ((getV fs "link").orV (getV fs "url")).truthy = false →
          valGet out "link" = some (.str ("/projects/" ++ slugify t))) := by
  intro fs out h
  simp only [normalize_project_entry, normalize_project_obj] at h
  rw [Option.map_eq_some'] at h
  obtain ⟨link, hlink, hout⟩ := h
  subst hout
  refine ⟨by simp [valGet, assocGet], by simp [valGet, assocGet], ?_, ?_⟩
  · intro hrole
    have h1 : (getV fs "role").orV (.str "") = .str "" := by
      rw [Val.orV, hrole]
      simp
    have h2 : ((getV fs "role").orV (.str "")).orV (.str "Full-Stack Engineer")
        = .str "Full-Stack Engineer" := by
      rw [h1]
      rfl
    simp [valGet, assocGet, h2]
  · intro t htitle hne hlink0
    have hts : (Val.str t).truthy = true := by
      have h' : ¬ (t.isEmpty = true) := fun hcontra => hne ((String.isEmpty_iff _).mp hcontra)
      simp only [Bool.not_eq_true] at h'
      simp [Val.truthy, h']
    have htitle' : (getV fs "title").orV (.str "") = .str t := by
      rw [Val.orV, htitle, hts]
      rfl
    rw [hlink0, htitle', hts] at hlink
    simp only [Bool.not_false, Bool.true_and, if_pos] at hlink
    injection hlink with hlink
    subst hlink
    have hne2 : ("/projects/" ++ slugify t) ≠ "" := by
      intro hc
      have hdata : ("/projects/" ++ slugify t).data = "".data := by rw [hc]
      have hdata2 : ("/projects/" ++ slugify t).data
          = "/projects/".data ++ (slugify t).data := rfl
      rw [hdata2] at hdata
      simp at hdata
    have hslug : ((getV fs "link").orV (getV fs "url")).orV
        (Val.str ("/projects/" ++ slugify t)) = Val.str ("/projects/" ++ slugify t) := by
      rw [Val.orV, hlink0]
      simp
    have h'' : ¬ (("/projects/" ++ slugify t).isEmpty = true) :=
      fun hcontra => hne2 ((String.isEmpty_iff _).mp hcontra)
    simp only [Bool.not_eq_true] at h''
    have htr : (Val.str ("/projects/" ++ slugify t)).truthy = true := by
      simp [Val.truthy, h'']
    have h3 : (Val.str ("/projects/" ++ slugify t)).orV (.str "")
        = Val.str ("/projects/" ++ slugify t) := by
      rw [Val.orV, htr]
      rfl
    simp [valGet, assocGet, h3]

/-- Witness for the amended C3 at a concrete project entry. -/
theorem c3_amended_project_defaults_witness :
    valGet (Val.obj
        [("title", .str "T"), ("tags", .list [.str "b"]),
         ("description", .str ""), ("link", .str "/projects/t"),
         ("caseStudy", Val.obj
           [("overview", .str ""), ("goal", .str ""),
            ("role", Val.obj [("title", .str "Full-Stack Engineer"),
              ("bullets", .list [])]),
            ("screenshots", .list []), ("outcomes", .list [.str "h"])])]) "tags"
      = some ((getV [("title", Val.str "T"), ("tags", Val.list [.str "a"]),
          ("technologies", Val.list [.str "b"]), ("outcomes", Val.list [.str "o"]),
          ("achievements", Val.list [.str "h"])] "technologies").orV
          ((getV [("title", Val.str "T"), ("tags", Val.list [.str "a"]),
            ("technologies", Val.list [.str "b"]), ("outcomes", Val.list [.str "o"]),
            ("achievements", Val.list [.str "h"])] "tags").orV (.list []))) :=
  (c3_amended_project_defaults
    [("title", .str "T"), ("tags", .list [.str "a"]),
     ("technologies", .list [.str "b"]), ("outcomes", .list [.str "o"]),
     ("achievements", .list [.str "h"])]
    (Val.obj
      [("title", .str "T"), ("tags", .list [.str "b"]),
       ("description", .str ""), ("link", .str "/projects/t"),
       ("caseStudy", Val.obj
         [("overview", .str ""), ("goal", .str ""),
          ("role", Val.obj [("title", .str "Full-Stack Engineer"),
            ("bullets", .list [])]),
          ("screenshots", .list []), ("outcomes", .list [.str "h"])])])
    (by rfl)).1

/- ### Coercion-error timing (C2) -/

/-- C2 counterexample: a batch whose `projects` value is the unparsable
string `"oops"` raises the coercion error only AFTER the snapshot has
been read from the store — the event log of the aborted request is
`[readSnapshot]`, not `[]`, refuting "aborts before any store access". -/
theorem c2_counterexample :
    apply_portfolio_suggestions (some (Val.obj [])) 0
        [Edit.mk "projects" (.str "oops") .none]
      = ([StoreEvent.readSnapshot], .error (.coercion "projects")) :=
  rfl

/-- C2 amended: the coercion error is raised after the document snapshot
is read (and after an empty document is created when none exists), but
always before any field mutation is written to the store: whenever the
request ends in a coercion error, the event log is exactly the
read (plus the create on a missing document) and contains no write. -/
theorem c2_amended_coercion_aborts_before_write :
    ∀ store now updates f,
      (apply_portfolio_suggestions store now updates).2 = .error (.coercion f) →
      (apply_portfolio_suggestions store now updates).1
        = (match store with
           | some _ => [StoreEvent.readSnapshot]
           | Option.none => [StoreEvent.readSnapshot, StoreEvent.createEmpty]) := by
  intro store now updates f h
  rw [apply_portfolio_suggestions.eq_def] at h ⊢
  match hp : pipelineEdits updates with
  | Option.none => rw [hp] at h; simp at h
  | some final =>
    rw [hp] at h
    simp only [] at h ⊢
    match hv : validate_update_fields (final.map (fun x => x.field)) with
    | .error p => rw [hv] at h; simp at h
    | .ok u =>
      rw [hv] at h ⊢
      simp only [] at h ⊢
      match hc : compile_items (store.getD (emptyPortfolioDoc now))
          (List.map (fun e => Edit.mk e.field e.value (maybe_parse_json e.expectedCurrent)) final) [] with
      | .error err => rw [hc]
      | .ok m => rw [hc] at h; simp at h

/-- Witness for the amended C2 at the concrete aborting request. -/
theorem c2_amended_coercion_aborts_before_write_witness :
    (apply_portfolio_suggestions (some (Val.obj [])) 0
        [Edit.mk "projects" (.str "oops") .none]).1
      = [StoreEvent.readSnapshot] :=
  c2_amended_coercion_aborts_before_write (some (Val.obj [])) 0
    [Edit.mk "projects" (.str "oops") .none] "projects" (by rfl)

/- ### Association-list lemmas -/

theorem assocGet_assocSet_self {α β : Type} [DecidableEq α]
    (m : List (α × β)) (k : α) (v : β) :
    assocGet (assocSet m k v) k = some v := by
  induction m with
  | nil => simp [assocSet, assocGet]
  | cons p rest ih =>
    by_cases hk : p.1 = k
    · simp [assocSet, assocGet, hk]
    · obtain ⟨k', v'⟩ := p
      simp only at hk
      simp [assocSet, assocGet, hk, ih]

theorem assocGet_assocSet_other {α β : Type} [DecidableEq α]
    (m : List (α × β)) (k k' : α) (v : β) (h : k' ≠ k) :
    assocGet (assocSet m k v) k' = assocGet m k' := by
  induction m with
  | nil =>
    simp only [assocSet, assocGet]
    rw [if_neg (fun hh => h hh.symm)]
  | cons p rest ih =>
    obtain ⟨k0, v0⟩ := p
    by_cases hk : k0 = k
    · subst hk
      rw [assocSet, if_pos rfl, assocGet, assocGet,
        if_neg (fun hh => h hh.symm), if_neg (fun hh => h hh.symm)]
    · rw [assocSet, if_neg hk, assocGet, assocGet]
      by_cases hk' : k0 = k'
      · rw [if_pos hk', if_pos hk']
      · rw [if_neg hk', if_neg hk', ih]

theorem assocGet_mem {α β : Type} [DecidableEq α]
    {m : List (α × β)} {k : α} {v : β} (h : assocGet m k = some v) :
    (k, v) ∈ m := by
  induction m with
  | nil => simp [assocGet] at h
  | cons p rest ih =>
    obtain ⟨k0, v0⟩ := p
    by_cases hk : k0 = k
    · subst hk
      rw [assocGet, if_pos rfl] at h
      injection h with h
      subst h
      exact List.mem_cons_self _ _
    · rw [assocGet, if_neg hk] at h
      exact List.mem_cons_of_mem _ (ih h)

/- ### Legacy contact expansion (C7) -/

/-- The canonical contact field strings tokenize as expected. -/
theorem path_to_tokens_canonicalContact {fk : String}
    (hfk : fk ∈ (["label", "value", "href", "icon"] : List String)) (i : Nat) :
    path_to_tokens (canonicalContact i fk)
      = some [Tok.key "contacts", Tok.idx i, Tok.key fk] := by
  have hdata : canonicalContact i fk
      = Seg.render [Seg.key "contacts", Seg.idx i, Seg.key fk] := by
    apply String.ext
    show ((("contacts[" ++ natToStr i) ++ "].") ++ fk).data = _
    show _ = ("contacts" ++ (("[" ++ natToStr i) ++ "]" ++ ("." ++ fk ++ Seg.renderTail []))).data
    simp [Seg.renderTail]
  rw [hdata, path_to_tokens_render]
  · rfl
  · intro sg hsg
    simp only [List.mem_cons, List.not_mem_nil, or_false] at hsg
    rcases hsg with rfl | rfl | rfl
    · exact ⟨by decide, by decide⟩
    · trivial
    · simp only [List.mem_cons, List.not_mem_nil, or_false] at hfk
      rcases hfk with rfl | rfl | rfl | rfl <;> exact ⟨by decide, by decide⟩

/-- The legacy pair of a derived canonical contact edit: none. -/
theorem legacyOf_canonicalContact {fk : String}
    (hfk : fk ∈ (["label", "value", "href", "icon"] : List String))
    (i : Nat) (v ec : Val) :
    legacyOf (Edit.mk (canonicalContact i fk) v ec) = Option.none := by
  rw [legacyOf]
  simp only
  rw [path_to_tokens_canonicalContact hfk]
  simp only [legacyKeyOf]
  simp only [List.mem_cons, List.not_mem_nil, or_false] at hfk
  rcases hfk with rfl | rfl | rfl | rfl <;> rfl

/-- The first expander loop retains exactly the last legacy edit of
each `(index, key)` pair. -/
theorem expandLoop_get :
    ∀ {updates : List Edit} {lf : List ((Nat × String) × Edit)} {ex : List Edit}
      {lf' : List ((Nat × String) × Edit)} {ex' : List Edit},
      expandLoop updates lf ex = some (lf', ex') →
      ∀ ik, assocGet lf' ik
        = (match lastLegacy updates ik with
           | some x => some x
           | Option.none => assocGet lf ik) := by
  intro updates
  induction updates with
  | nil =>
    intro lf ex lf' ex' h ik
    rw [expandLoop] at h
    injection h with h
    have hlf : lf = lf' := congrArg Prod.fst h
    rw [← hlf]
    rfl
  | cons e rest ih =>
    intro lf ex lf' ex' h ik
    rw [expandLoop] at h
    match hts : path_to_tokens e.field with
    | Option.none => rw [hts] at h; exact Option.noConfusion h
    | some ts =>
      rw [hts] at h
      simp only [] at h
      have hleg : legacyOf e = legacyKeyOf ts := by rw [legacyOf, hts]
      match hlk : legacyKeyOf ts with
      | some jk =>
        rw [hlk] at h
        rw [ih h ik, lastLegacy]
        rw [hleg, hlk]
        match lastLegacy rest ik with
        | some x => rfl
        | Option.none =>
          by_cases hik : ik = jk
          · subst hik
            rw [if_pos rfl, assocGet_assocSet_self]
          · rw [if_neg (fun hh => hik (by injection hh with h'; exact h'.symm)),
              assocGet_assocSet_other _ _ _ _ hik]
      | Option.none =>
        rw [hlk] at h
        rw [ih h ik, lastLegacy, hleg, hlk]
        match lastLegacy rest ik with
        | some x => rfl
        | Option.none => simp

/-- The first expander loop passes through exactly the non-legacy edits,
in order. -/
theorem expandLoop_ex :
    ∀ {updates : List Edit} {lf : List ((Nat × String) × Edit)} {ex : List Edit}
      {lf' : List ((Nat × String) × Edit)} {ex' : List Edit},
      expandLoop updates lf ex = some (lf', ex') →
      ex' = ex ++ updates.filter (fun e => (legacyOf e).isNone) := by
  intro updates
  induction updates with
  | nil =>
    intro lf ex lf' ex' h
    rw [expandLoop] at h
    injection h with h
    have hex : ex = ex' := congrArg Prod.snd h
    rw [← hex]
    simp
  | cons e rest ih =>
    intro lf ex lf' ex' h
    rw [expandLoop] at h
    match hts : path_to_tokens e.field with
    | Option.none => rw [hts] at h; exact Option.noConfusion h
    | some ts =>
      rw [hts] at h
      simp only [] at h
      have hleg : legacyOf e = legacyKeyOf ts := by rw [legacyOf, hts]
      match hlk : legacyKeyOf ts with
      | some jk =>
        rw [hlk] at h
        rw [ih h, List.filter_cons]
        simp [hleg, hlk]
      | Option.none =>
        rw [hlk] at h
        rw [ih h, List.filter_cons]
        simp [hleg, hlk]

theorem lastLegacy_append (pre l : List Edit) (ik : Nat × String) :
    lastLegacy (pre ++ l) ik
      = (match lastLegacy l ik with
         | some x => some x
         | Option.none => lastLegacy pre ik) := by
  induction pre with
  | nil =>
    simp only [List.nil_append]
    match lastLegacy l ik with
    | some x => rfl
    | Option.none => rfl
  | cons e pre ih =>
    rw [List.cons_append, lastLegacy, ih, lastLegacy]
    match lastLegacy l ik with
    | some x => rfl
    | Option.none => rfl

theorem lastLegacy_none_of_all {l : List Edit} {ik : Nat × String}
    (h : ∀ e ∈ l, legacyOf e ≠ some ik) : lastLegacy l ik = Option.none := by
  induction l with
  | nil => rfl
  | cons e rest ih =>
    rw [lastLegacy, ih (fun e' he' => h e' (by simp [he']))]
    rw [if_neg (h e (by simp))]

theorem foldl_derive_mem {existing : List String} :
    ∀ (lf : List ((Nat × String) × Edit)) (acc : List Edit) (x : Edit),
      x ∈ lf.foldl (fun acc p => acc ++ deriveLegacy existing p.1 p.2) acc ↔
        x ∈ acc ∨ ∃ p ∈ lf, x ∈ deriveLegacy existing p.1 p.2 := by
  intro lf
  induction lf with
  | nil => simp
  | cons p rest ih =>
    intro acc x
    rw [List.foldl_cons, ih]
    simp only [List.mem_append, List.mem_cons]
    constructor
    · rintro ((hx | hx) | ⟨q, hq, hx⟩)
      · exact Or.inl hx
      · exact Or.inr ⟨p, Or.inl rfl, hx⟩
      · exact Or.inr ⟨q, Or.inr hq, hx⟩
    · rintro (hx | ⟨q, (rfl | hq), hx⟩)
      · exact Or.inl (Or.inl hx)
      · exact Or.inl (Or.inr hx)
      · exact Or.inr ⟨q, hq, hx⟩

/-- C7: the expander removes every legacy contact edit and, for the
last edit in input order carrying a given `(index, key)` pair, emits one
derived edit per canonical field at `contacts[i].<field>` — except for
canonical paths already present verbatim in the original batch, where
the explicit edit is kept and the derived one suppressed; e.g.
`contacts[0].email = "x@y.com"` derives `contacts[0].href =
"mailto:x@y.com"` and `contacts[0].icon = "email"`. -/
theorem c7_legacy_contact_expansion :
    (∀ updates out i k e pre post,
      expand_contact_legacy_updates updates = some out →
      updates = pre ++ e :: post →
      legacyOf e = some (i, k) →
      (∀ e' ∈ post, legacyOf e' ≠ some (i, k)) →
      ∀ fk, fk ∈ (["label", "value", "href", "icon"] : List String) →
        (canonicalContact i fk ∉ updates.map (·.field) →
          Edit.mk (canonicalContact i fk)
            (getV (normalize_contact_legacy_value k
              (pyStr (if e.value.truthy then e.value else .str ""))) fk)
            e.expectedCurrent ∈ out)
        ∧ (canonicalContact i fk ∈ updates.map (·.field) →
          ∀ e' ∈ out, e'.field = canonicalContact i fk → e' ∈ updates))
    ∧ (∀ updates out, expand_contact_legacy_updates updates = some out →
        ∀ e' ∈ out, legacyOf e' = Option.none)
    ∧ expand_contact_legacy_updates [Edit.mk "contacts[0].email" (.str "x@y.com") .none]
      = some [Edit.mk "contacts[0].label" (.str "Email") .none,
              Edit.mk "contacts[0].value" (.str "x@y.com") .none,
              Edit.mk "contacts[0].href" (.str "mailto:x@y.com") .none,
              Edit.mk "contacts[0].icon" (.str "email") .none]
    ∧ expand_contact_legacy_updates
        [Edit.mk "contacts[0].email" (.str "x@y.com") .none,
         Edit.mk "contacts[0].href" (.str "custom") .none]
      = some [Edit.mk "contacts[0].href" (.str "custom") .none,
              Edit.mk "contacts[0].label" (.str "Email") .none,
              Edit.mk "contacts[0].value" (.str "x@y.com") .none,
              Edit.mk "contacts[0].icon" (.str "email") .none] := by
  refine ⟨?_, ?_, rfl, rfl⟩
  · intro updates out i k e pre post hexp hsplit hleg hlast fk hfk
    rw [expand_contact_legacy_updates] at hexp
    match hel : expandLoop updates [] [] with
    | Option.none => rw [hel] at hexp; exact Option.noConfusion hexp
    | some (lf, ex) =>
      rw [hel] at hexp
      injection hexp with hexp
      subst hexp
      have hlastleg : lastLegacy updates (i, k) = some e := by
        rw [hsplit, lastLegacy_append, lastLegacy,
          lastLegacy_none_of_all hlast, if_pos hleg]
      have hget : assocGet lf (i, k) = some e := by
        rw [expandLoop_get hel (i, k), hlastleg]
      have hmem : ((i, k), e) ∈ lf := assocGet_mem hget
      constructor
      · intro hnotin
        rw [foldl_derive_mem]
        refine Or.inr ⟨((i, k), e), hmem, ?_⟩
        rw [deriveLegacy]
        apply List.mem_filterMap.mpr
        refine ⟨fk, hfk, ?_⟩
        simp only []
        rw [if_neg hnotin]
      · intro hin e' he' hfield
        rw [foldl_derive_mem] at he'
        rcases he' with hex | ⟨p, hp, hder⟩
        · have hx := expandLoop_ex hel
          rw [List.nil_append] at hx
          subst hx
          exact (List.mem_filter.mp hex).1
        · rw [deriveLegacy] at hder
          obtain ⟨fk', hfk', hsome⟩ := List.mem_filterMap.mp hder
          simp only [] at hsome
          by_cases hfp : canonicalContact p.1.1 fk' ∈ updates.map (·.field)
          · rw [if_pos hfp] at hsome
            exact Option.noConfusion hsome
          · rw [if_neg hfp] at hsome
            injection hsome with hsome
            rw [← hsome] at hfield
            simp only [] at hfield
            rw [hfield] at hfp
            exact absurd hin hfp
  · intro updates out hexp e' he'
    rw [expand_contact_legacy_updates] at hexp
    match hel : expandLoop updates [] [] with
    | Option.none => rw [hel] at hexp; exact Option.noConfusion hexp
    | some (lf, ex) =>
      rw [hel] at hexp
      injection hexp with hexp
      subst hexp
      rw [foldl_derive_mem] at he'
      rcases he' with hex | ⟨p, hp, hder⟩
      · have hx := expandLoop_ex hel
        rw [List.nil_append] at hx
        subst hx
        have := (List.mem_filter.mp hex).2
        exact Option.isNone_iff_eq_none.mp this
      · rw [deriveLegacy] at hder
        obtain ⟨fk', hfk', hsome⟩ := List.mem_filterMap.mp hder
        simp only [] at hsome
        by_cases hfp : canonicalContact p.1.1 fk' ∈ updates.map (·.field)
        · rw [if_pos hfp] at hsome
          exact Option.noConfusion hsome
        · rw [if_neg hfp] at hsome
          injection hsome with hsome
          rw [← hsome]
          exact legacyOf_canonicalContact hfk' _ _ _

/-- Witness for C7 at the spec's concrete legacy batch. -/
theorem c7_legacy_contact_expansion_witness :
    Edit.mk (canonicalContact 0 "href")
        (getV (normalize_contact_legacy_value "email"
          (pyStr (if (Val.str "x@y.com").truthy then Val.str "x@y.com" else .str "")))
          "href")
        Val.none
      ∈ [Edit.mk "contacts[0].label" (.str "Email") .none,
         Edit.mk "contacts[0].value" (.str "x@y.com") .none,
         Edit.mk "contacts[0].href" (.str "mailto:x@y.com") .none,
         Edit.mk "contacts[0].icon" (.str "email") .none] :=
  (c7_legacy_contact_expansion.1
    [Edit.mk "contacts[0].email" (.str "x@y.com") .none]
    [Edit.mk "contacts[0].label" (.str "Email") .none,
     Edit.mk "contacts[0].value" (.str "x@y.com") .none,
     Edit.mk "contacts[0].href" (.str "mailto:x@y.com") .none,
     Edit.mk "contacts[0].icon" (.str "email") .none]
    0 "email" (Edit.mk "contacts[0].email" (.str "x@y.com") .none) [] []
    (by rfl) rfl (by rfl)
    (fun e' he' => absurd he' (List.not_mem_nil e'))
    "href" (by simp)).1 (by decide)

/- ### C6: child coalescing builds the nested merged map -/

/-- Every parent field recorded by the first pass of the coalescer is
the field of some edit of the batch. -/
theorem parentFieldsLoop_sub (updates : List Edit) : ∀ (acc pf : List String),
    parentFieldsLoop updates acc = some pf →
    ∀ f ∈ pf, f ∈ acc ∨ ∃ e ∈ updates, e.field = f := by
  induction updates with
  | nil =>
    intro acc pf h f hf
    rw [parentFieldsLoop] at h
    injection h with h
    exact Or.inl (h ▸ hf)
  | cons e rest ih =>
    intro acc pf h f hf
    rw [parentFieldsLoop] at h
    split at h
    · exact Option.noConfusion h
    · rename_i r j heq
      by_cases hr : r ∈ LIST_FIELDS
      · rw [if_pos hr] at h
        by_cases hin : e.field ∈ acc
        · rw [if_pos hin] at h
          rcases ih _ _ h f hf with hacc | ⟨e', he', hfe⟩
          · exact Or.inl hacc
          · exact Or.inr ⟨e', List.mem_cons_of_mem _ he', hfe⟩
        · rw [if_neg hin] at h
          rcases ih _ _ h f hf with hacc | ⟨e', he', hfe⟩
          · rcases List.mem_append.mp hacc with h1 | h1
            · exact Or.inl h1
            · exact Or.inr ⟨e, List.mem_cons_self _ _, (List.mem_singleton.mp h1).symm⟩
          · exact Or.inr ⟨e', List.mem_cons_of_mem _ he', hfe⟩
      · rw [if_neg hr] at h
        rcases ih _ _ h f hf with hacc | ⟨e', he', hfe⟩
        · exact Or.inl hacc
        · exact Or.inr ⟨e', List.mem_cons_of_mem _ he', hfe⟩
    · rcases ih _ _ h f hf with hacc | ⟨e', he', hfe⟩
      · exact Or.inl hacc
      · exact Or.inr ⟨e', List.mem_cons_of_mem _ he', hfe⟩

/-- An edit satisfying `childEditB root i` tokenizes to
`root :: [i] :: <non-empty rest>`. -/
theorem childEditB_tokens {R : String} {i : Nat} {e : Edit}
    (h : childEditB R i e = true) :
    ∃ t ts', path_to_tokens e.field = some (Tok.key R :: Tok.idx i :: t :: ts') := by
  simp only [childEditB] at h
  split at h
  · rename_i r j t ts heq
    rw [Bool.and_eq_true] at h
    obtain ⟨h1, h2⟩ := h
    rw [of_decide_eq_true h1, of_decide_eq_true h2] at heq
    exact ⟨t, ts, heq⟩
  · exact Bool.noConfusion h

/-- Canonical `root[i]` strings over wellformed roots are injective in
the root and the index. -/
theorem canonicalIdx_inj {r1 r2 : String} {i1 i2 : Nat}
    (h1 : wellKeyB r1 = true) (h2 : wellKeyB r2 = true)
    (h : canonicalIdx r1 i1 = canonicalIdx r2 i2) : r1 = r2 ∧ i1 = i2 := by
  have t1 := path_to_tokens_canonicalIdx h1 i1
  have t2 := path_to_tokens_canonicalIdx h2 i2
  rw [h, t2] at t1
  injection t1 with t1
  injection t1 with ha t1
  injection t1 with hb _
  injection ha with ha
  injection hb with hb
  exact ⟨ha.symm, hb.symm⟩

/-- A key of `assocSet m k v` is a key of `m` or `k` itself. -/
theorem assocSet_keys {α β : Type} [DecidableEq α] (m : List (α × β)) (k : α) (v : β) :
    ∀ k' ∈ (assocSet m k v).map Prod.fst, k' ∈ m.map Prod.fst ∨ k' = k := by
  induction m with
  | nil =>
    intro k' h
    simp [assocSet] at h
    exact Or.inr h
  | cons p rest ih =>
    obtain ⟨k0, v0⟩ := p
    intro k' h
    rw [assocSet] at h
    by_cases hk : k0 = k
    · rw [if_pos hk] at h
      simp only [List.map_cons, List.mem_cons] at h ⊢
      exact Or.inl h
    · rw [if_neg hk] at h
      simp only [List.map_cons, List.mem_cons] at h ⊢
      rcases h with h | h
      · exact Or.inl (Or.inl h)
      · rcases ih k' h with h2 | h2
        · exact Or.inl (Or.inr h2)
        · exact Or.inr h2

/-- `assocSet` preserves distinctness of the keys. -/
theorem assocSet_keys_nodup {α β : Type} [DecidableEq α] (m : List (α × β)) (k : α)
    (v : β) (h : (m.map Prod.fst).Nodup) : ((assocSet m k v).map Prod.fst).Nodup := by
  induction m with
  | nil => simp [assocSet]
  | cons p rest ih =>
    obtain ⟨k0, v0⟩ := p
    rw [assocSet]
    simp only [List.map_cons, List.nodup_cons] at h
    by_cases hk : k0 = k
    · rw [if_pos hk]
      simp only [List.map_cons, List.nodup_cons]
      exact h
    · rw [if_neg hk]
      simp only [List.map_cons, List.nodup_cons]
      refine ⟨?_, ih h.2⟩
      intro hmem
      rcases assocSet_keys rest k v k0 hmem with h1 | h1
      · exact h.1 h1
      · exact hk h1

/-- On a dict with distinct keys, lookup of a member pair returns its
value. -/
theorem assocGet_of_mem_nodup {α β : Type} [DecidableEq α] :
    ∀ {m : List (α × β)} {k : α} {v : β}, (k, v) ∈ m →
      (m.map Prod.fst).Nodup → assocGet m k = some v := by
  intro m
  induction m with
  | nil =>
    intro k v h _
    exact absurd h (List.not_mem_nil _)
  | cons p rest ih =>
    intro k v h hnd
    obtain ⟨k0, v0⟩ := p
    rw [assocGet]
    simp only [List.map_cons, List.nodup_cons] at hnd
    rcases List.mem_cons.mp h with heq | hmem
    · injection heq with h1 h2
      subst h1
      subst h2
      rw [if_pos rfl]
    · by_cases hk : k0 = k
      · exact absurd (by rw [hk]; exact List.mem_map_of_mem Prod.fst hmem) hnd.1
      · rw [if_neg hk]
        exact ih hmem hnd.2

/-- The pass-through list of the coalescing loop: the incoming `kept`
followed by the non-item-field edits of the batch, in order. -/
theorem coalesceLoop_kept (pf : List String) :
    ∀ (updates : List Edit) (grouped : List ((String × Nat) × List (String × Val)))
      (kept : List Edit) {g' : List ((String × Nat) × List (String × Val))}
      {k' : List Edit},
      coalesceLoop pf updates grouped kept = some (g', k') →
      k' = kept ++ updates.filter keptB := by
  intro updates
  induction updates with
  | nil =>
    intro grouped kept g' k' h
    rw [coalesceLoop] at h
    injection h with h
    injection h with h1 h2
    subst h2
    simp
  | cons e rest ih =>
    intro grouped kept g' k' h
    rw [coalesceLoop] at h
    split at h
    · exact Option.noConfusion h
    · rename_i r j t2 ts2 heq
      by_cases hr : r ∈ LIST_FIELDS
      · rw [if_pos hr] at h
        have hkb : keptB e = false := by
          simp [keptB, heq, hr]
        by_cases hcin : canonicalIdx r j ∈ pf
        · rw [if_pos hcin] at h
          rw [ih _ _ h]
          simp [List.filter_cons, hkb]
        · rw [if_neg hcin] at h
          simp only [] at h
          rw [ih _ _ h]
          simp [List.filter_cons, hkb]
      · rw [if_neg hr] at h
        have hkb : keptB e = true := by
          simp [keptB, heq, hr]
        rw [ih _ _ h]
        simp [List.filter_cons, hkb]
    · rename_i v hnc heq
      have hkb : keptB e = true := by
        simp only [keptB, heq]
        split
        · rename_i r j t ts hx
          injection hx with hx
          exact absurd hx (fun hh => hnc r j t ts hh)
        · rfl
      rw [ih _ _ h]
      simp [List.filter_cons, hkb]

/-- Every key of the coalescer's grouped dict is an incoming key or a
wellformed list-section root paired with an index. -/
theorem coalesceLoop_keys (pf : List String) :
    ∀ (updates : List Edit) (grouped : List ((String × Nat) × List (String × Val)))
      (kept : List Edit) {g' : List ((String × Nat) × List (String × Val))}
      {k' : List Edit},
      coalesceLoop pf updates grouped kept = some (g', k') →
      ∀ p ∈ g', p.1 ∈ grouped.map Prod.fst ∨
        (wellKeyB p.1.1 = true ∧ p.1.1 ∈ LIST_FIELDS) := by
  intro updates
  induction updates with
  | nil =>
    intro grouped kept g' k' h p hp
    rw [coalesceLoop] at h
    injection h with h
    injection h with h1 h2
    subst h1
    exact Or.inl (List.mem_map_of_mem Prod.fst hp)
  | cons e rest ih =>
    intro grouped kept g' k' h p hp
    rw [coalesceLoop] at h
    split at h
    · exact Option.noConfusion h
    · rename_i r j t2 ts2 heq
      by_cases hr : r ∈ LIST_FIELDS
      · rw [if_pos hr] at h
        by_cases hcin : canonicalIdx r j ∈ pf
        · rw [if_pos hcin] at h
          exact ih _ _ h p hp
        · rw [if_neg hcin] at h
          simp only [] at h
          rcases ih _ _ h p hp with h0 | h0
          · rcases assocSet_keys _ _ _ _ h0 with h1 | h1
            · exact Or.inl h1
            · refine Or.inr ?_
              rw [h1]
              exact ⟨path_to_tokens_keys heq r (List.mem_cons_self _ _), hr⟩
          · exact Or.inr h0
      · rw [if_neg hr] at h
        exact ih _ _ h p hp
    · rename_i v hnc heq
      exact ih _ _ h p hp

/-- The coalescing loop preserves distinctness of the grouped keys. -/
theorem coalesceLoop_nodup (pf : List String) :
    ∀ (updates : List Edit) (grouped : List ((String × Nat) × List (String × Val)))
      (kept : List Edit) {g' : List ((String × Nat) × List (String × Val))}
      {k' : List Edit},
      coalesceLoop pf updates grouped kept = some (g', k') →
      (grouped.map Prod.fst).Nodup → (g'.map Prod.fst).Nodup := by
  intro updates
  induction updates with
  | nil =>
    intro grouped kept g' k' h hnd
    rw [coalesceLoop] at h
    injection h with h
    injection h with h1 h2
    subst h1
    exact hnd
  | cons e rest ih =>
    intro grouped kept g' k' h hnd
    rw [coalesceLoop] at h
    split at h
    · exact Option.noConfusion h
    · rename_i r j t2 ts2 heq
      by_cases hr : r ∈ LIST_FIELDS
      · rw [if_pos hr] at h
        by_cases hcin : canonicalIdx r j ∈ pf
        · rw [if_pos hcin] at h
          exact ih _ _ h hnd
        · rw [if_neg hcin] at h
          simp only [] at h
          exact ih _ _ h (assocSet_keys_nodup _ _ _ hnd)
      · rw [if_neg hr] at h
        exact ih _ _ h hnd
    · rename_i v hnc heq
      exact ih _ _ h hnd

/-- For a fixed `(R, i)` without a whole-item marker, the grouped entry
after the loop is the incoming one when `R[i]` has no item-field edits,
and otherwise the fold of `_set_nested_dict_value` over them. -/
theorem coalesceLoop_get {R : String} {i : Nat} {pf : List String}
    (hR : R ∈ LIST_FIELDS) (hpf : canonicalIdx R i ∉ pf) :
    ∀ (updates : List Edit) (grouped : List ((String × Nat) × List (String × Val)))
      (kept : List Edit) {g' : List ((String × Nat) × List (String × Val))}
      {k' : List Edit},
      coalesceLoop pf updates grouped kept = some (g', k') →
      assocGet g' (R, i) =
        if (updates.filter (childEditB R i)).isEmpty = true
        then assocGet grouped (R, i)
        else some ((updates.filter (childEditB R i)).foldl
            (fun m e => set_nested_dict_value m (restKeys e) e.value)
            ((assocGet grouped (R, i)).getD [])) := by
  intro updates
  induction updates with
  | nil =>
    intro grouped kept g' k' h
    rw [coalesceLoop] at h
    injection h with h
    injection h with h1 h2
    subst h1
    simp
  | cons e rest ih =>
    intro grouped kept g' k' h
    rw [coalesceLoop] at h
    split at h
    · exact Option.noConfusion h
    · rename_i r j t2 ts2 heq
      by_cases hr : r ∈ LIST_FIELDS
      · rw [if_pos hr] at h
        by_cases hcin : canonicalIdx r j ∈ pf
        · rw [if_pos hcin] at h
          have hce : childEditB R i e = false := by
            simp only [childEditB, heq]
            by_cases h1 : r = R
            · by_cases h2 : j = i
              · rw [h1, h2] at hcin
                exact absurd hcin hpf
              · simp [h2]
            · simp [h1]
          rw [ih _ _ h]
          simp [List.filter_cons, hce]
        · rw [if_neg hcin] at h
          simp only [] at h
          by_cases hkey : (r, j) = ((R : String), i)
          · injection hkey with hk1 hk2
            rw [hk1, hk2] at heq h
            have hce : childEditB R i e = true := by
              simp [childEditB, heq]
            have hrk : restKeys e = List.map tok_str (t2 :: ts2) := by
              simp [restKeys, heq]
            have hih := ih _ _ h
            have hself := assocGet_assocSet_self grouped ((R : String), i)
              (set_nested_dict_value ((assocGet grouped (R, i)).getD [])
                (List.map tok_str (t2 :: ts2)) e.value)
            rw [hih, hself]
            by_cases hcs : (List.filter (childEditB R i) rest).isEmpty = true
            · have hnil : List.filter (childEditB R i) rest = [] := by
                cases hx : List.filter (childEditB R i) rest with
                | nil => rfl
                | cons a l =>
                  rw [hx] at hcs
                  exact absurd hcs (by simp)
              rw [if_pos hcs]
              simp [List.filter_cons, hce, hnil, hrk]
            · rw [if_neg hcs]
              simp [List.filter_cons, hce, hrk]
          · have hce : childEditB R i e = false := by
              simp only [childEditB, heq]
              by_cases h1 : r = R
              · by_cases h2 : j = i
                · exact absurd (by rw [h1, h2]) hkey
                · simp [h2]
              · simp [h1]
            have hih := ih _ _ h
            rw [assocGet_assocSet_other _ _ _ _ (fun hh => hkey hh.symm)] at hih
            rw [hih]
            simp [List.filter_cons, hce]
      · rw [if_neg hr] at h
        have hce : childEditB R i e = false := by
          simp only [childEditB, heq]
          by_cases h1 : r = R
          · exact absurd (by rw [h1]; exact hR) hr
          · simp [h1]
        rw [ih _ _ h]
        simp [List.filter_cons, hce]
    · rename_i v hnc heq
      have hce : childEditB R i e = false := by
        simp only [childEditB, heq]
        split
        · rename_i r j t ts hx
          injection hx with hx
          exact absurd hx (fun hh => hnc r j t ts hh)
        · rfl
      rw [ih _ _ h]
      simp [List.filter_cons, hce]

/-- C6: child coalescing.  For every list section `R` and index `i`
with no whole-item edit `R[i]` anywhere in the batch, the coalescer
merges the item-field edits `R[i].<rest>` into exactly one synthesized
whole-item edit on the canonical field `R[i]`, whose value is the
nested map obtained by inserting each `<rest>` path in batch order
(`mergedValue`), and whose `expectedCurrent` is the empty-string
placeholder; concretely, `projects[2].title = "T"` plus
`projects[2].tags = ["x","y"]` with no `projects[2]` marker yields the
single synthesized `projects[2]` edit carrying both fields. -/
theorem c6_child_coalescing :
    (∀ (updates out : List Edit) (R : String) (i : Nat),
      coalesce_indexed_children updates = some out →
      R ∈ LIST_FIELDS →
      (∀ e ∈ updates, path_to_tokens e.field ≠ some [Tok.key R, Tok.idx i]) →
      (updates.filter (childEditB R i)).isEmpty = false →
      (Edit.mk (canonicalIdx R i) (.obj (mergedValue updates R i)) (.str "") ∈ out ∧
       ∀ e' ∈ out, e'.field = canonicalIdx R i →
         e' = Edit.mk (canonicalIdx R i) (.obj (mergedValue updates R i)) (.str ""))) ∧
    coalesce_indexed_children
        [Edit.mk "projects[2].title" (.str "T") (.str "a"),
         Edit.mk "projects[2].tags" (.list [.str "x", .str "y"]) (.str "b")]
      = some [Edit.mk "projects[2]"
          (.obj [("title", .str "T"), ("tags", .list [.str "x", .str "y"])])
          (.str "")] := by
  constructor
  · intro updates out R i hco hR hnp hne
    rw [coalesce_indexed_children] at hco
    cases hpf : parentFieldsLoop updates [] with
    | none =>
      rw [hpf] at hco
      exact Option.noConfusion hco
    | some pf =>
      rw [hpf] at hco
      simp only [] at hco
      cases hcl : coalesceLoop pf updates [] [] with
      | none =>
        rw [hcl] at hco
        exact Option.noConfusion hco
      | some gk =>
        obtain ⟨g', k'⟩ := gk
        rw [hcl] at hco
        simp only [] at hco
        injection hco with hco
        obtain ⟨e₀, he₀u, he₀c⟩ : ∃ e₀, e₀ ∈ updates ∧ childEditB R i e₀ = true := by
          cases hl : updates.filter (childEditB R i) with
          | nil =>
            rw [hl] at hne
            exact absurd hne (by simp)
          | cons e₀ es =>
            have hm : e₀ ∈ updates.filter (childEditB R i) := by
              rw [hl]
              exact List.mem_cons_self _ _
            exact ⟨e₀, (List.mem_filter.mp hm).1, (List.mem_filter.mp hm).2⟩
        obtain ⟨t₀, ts₀, hts₀⟩ := childEditB_tokens he₀c
        have hwk : wellKeyB R = true :=
          path_to_tokens_keys hts₀ R (List.mem_cons_self _ _)
        have hcpf : canonicalIdx R i ∉ pf := by
          intro hin
          rcases parentFieldsLoop_sub updates [] pf hpf (canonicalIdx R i) hin with
            h0 | ⟨e2, he2u, he2f⟩
          · exact absurd h0 (List.not_mem_nil _)
          · exact hnp e2 he2u (by rw [he2f]; exact path_to_tokens_canonicalIdx hwk i)
        have hget' : assocGet g' (R, i) = some (mergedValue updates R i) := by
          rw [coalesceLoop_get hR hcpf updates [] [] hcl, hne]
          simp [mergedValue, assocGet]
        constructor
        · rw [← hco]
          refine List.mem_append_right _ ?_
          exact List.mem_map_of_mem _ (assocGet_mem hget')
        · intro e' he' hef
          rw [← hco] at he'
          rcases List.mem_append.mp he' with hk | hg
          · have hk2 := coalesceLoop_kept pf updates [] [] hcl
            rw [hk2, List.nil_append] at hk
            have he'u : e' ∈ updates := (List.mem_filter.mp hk).1
            exact absurd (by rw [hef]; exact path_to_tokens_canonicalIdx hwk i)
              (hnp e' he'u)
          · obtain ⟨g, hgmem, hgeq⟩ := List.mem_map.mp hg
            obtain ⟨⟨r', j'⟩, m'⟩ := g
            rcases coalesceLoop_keys pf updates [] [] hcl _ hgmem with h0 | ⟨hwk', hLF'⟩
            · simp at h0
            · have hcanon : canonicalIdx r' j' = canonicalIdx R i := by
                rw [← hgeq] at hef
                exact hef
              obtain ⟨hr', hj'⟩ := canonicalIdx_inj hwk' hwk hcanon
              subst hr'
              subst hj'
              have hnd := coalesceLoop_nodup pf updates [] [] hcl (by simp)
              have hg2 := assocGet_of_mem_nodup hgmem hnd
              rw [hget'] at hg2
              injection hg2 with hg2
              rw [← hgeq, ← hg2]
  · rfl

/-- Witness for C6 at the spec's concrete two-edit batch. -/
theorem c6_child_coalescing_witness :
    Edit.mk (canonicalIdx "projects" 2)
        (.obj (mergedValue
          [Edit.mk "projects[2].title" (.str "T") (.str "a"),
           Edit.mk "projects[2].tags" (.list [.str "x", .str "y"]) (.str "b")]
          "projects" 2))
        (.str "")
      ∈ [Edit.mk "projects[2]"
          (.obj [("title", .str "T"), ("tags", .list [.str "x", .str "y"])])
          (.str "")] :=
  (c6_child_coalescing.1
    [Edit.mk "projects[2].title" (.str "T") (.str "a"),
     Edit.mk "projects[2].tags" (.list [.str "x", .str "y"]) (.str "b")]
    [Edit.mk "projects[2]"
      (.obj [("title", .str "T"), ("tags", .list [.str "x", .str "y"])])
      (.str "")]
    "projects" 2
    (by rfl) (by decide) (by decide) (by rfl)).1

/- ### C1: parent-vs-child precedence through the whole pipeline -/

/-- `leadsWith` fails immediately on distinct head characters. -/
theorem leadsWith_cons_ne {c p : Char} (cs ps : List Char) (h : c ≠ p) :
    leadsWith (c :: cs) (p :: ps) = false := by
  simp [leadsWith, h]

/-- Alias mapping is the identity on canonical `root[i]` fields: they
end in `]`, never in the three dotted alias suffixes. -/
theorem map_field_aliases_canonical (R : String) (i : Nat) :
    map_field_aliases (canonicalIdx R i) = canonicalIdx R i := by
  have hdata : (canonicalIdx R i).data = R.data ++ ('[' :: (natDigits i ++ [']'])) := by
    show (((R ++ "[") ++ natToStr i) ++ "]").data = _
    simp [natToStr]
  have hrev : (canonicalIdx R i).data.reverse
      = ']' :: ((natDigits i).reverse ++ '[' :: R.data.reverse) := by
    rw [hdata]
    simp
  have h1 : endsWithStr (canonicalIdx R i) ".organization" = false := by
    rw [endsWithStr, hrev,
      show (".organization" : String).data.reverse
        = 'n' :: ['o', 'i', 't', 'a', 'z', 'i', 'n', 'a', 'g', 'r', 'o', '.'] from rfl]
    exact leadsWith_cons_ne _ _ (by decide)
  have h2 : endsWithStr (canonicalIdx R i) ".position" = false := by
    rw [endsWithStr, hrev,
      show (".position" : String).data.reverse
        = 'n' :: ['o', 'i', 't', 'i', 's', 'o', 'p', '.'] from rfl]
    exact leadsWith_cons_ne _ _ (by decide)
  have h3 : endsWithStr (canonicalIdx R i) ".name" = false := by
    rw [endsWithStr, hrev,
      show (".name" : String).data.reverse = 'e' :: ['m', 'a', 'n', '.'] from rfl]
    exact leadsWith_cons_ne _ _ (by decide)
  rw [map_field_aliases, h1, h2, h3]
  simp

/-- The legacy-contact expander keeps every non-legacy edit of the
batch. -/
theorem expand_keeps {u out : List Edit}
    (h : expand_contact_legacy_updates u = some out) :
    ∀ e ∈ u, (legacyOf e).isNone = true → e ∈ out := by
  rw [expand_contact_legacy_updates] at h
  cases hel : expandLoop u [] [] with
  | none =>
    rw [hel] at h
    exact Option.noConfusion h
  | some p =>
    obtain ⟨lf, ex⟩ := p
    rw [hel] at h
    simp only [] at h
    injection h with h
    intro e heu hnl
    have hex := expandLoop_ex hel
    rw [List.nil_append] at hex
    rw [← h]
    exact (foldl_derive_mem lf ex e).mpr
      (Or.inl (by rw [hex]; exact List.mem_filter.mpr ⟨heu, hnl⟩))

/-- Everything the parent-vs-children pruner outputs was in its
input. -/
theorem pruneParentLoop_sub {pf : List String} :
    ∀ {updates out : List Edit}, pruneParentLoop pf updates = some out →
      ∀ e ∈ out, e ∈ updates := by
  intro updates
  induction updates with
  | nil =>
    intro out h e he
    rw [pruneParentLoop] at h
    injection h with h
    rw [← h] at he
    exact absurd he (List.not_mem_nil _)
  | cons e0 rest ih =>
    intro out h e he
    rw [pruneParentLoop] at h
    split at h
    · exact Option.noConfusion h
    · rename_i ts heq
      cases hrec : pruneParentLoop pf rest with
      | none =>
        rw [hrec] at h
        exact Option.noConfusion h
      | some out2 =>
        rw [hrec] at h
        simp only [] at h
        split at h
        · rename_i r j t' ts'
          by_cases hc : r ∈ LIST_FIELDS ∧ canonicalIdx r j ∈ pf
          · rw [if_pos hc] at h
            injection h with h
            rw [← h] at he
            exact List.mem_cons_of_mem _ (ih hrec e he)
          · rw [if_neg hc] at h
            injection h with h
            rw [← h] at he
            rcases List.mem_cons.mp he with rfl | he2
            · exact List.mem_cons_self _ _
            · exact List.mem_cons_of_mem _ (ih hrec e he2)
        · injection h with h
          rw [← h] at he
          rcases List.mem_cons.mp he with rfl | he2
          · exact List.mem_cons_self _ _
          · exact List.mem_cons_of_mem _ (ih hrec e he2)

/-- The parent-vs-children pruner keeps every edit that is not shaped
`root[i].<rest>`. -/
theorem pruneParentLoop_keep {pf : List String} :
    ∀ {updates out : List Edit}, pruneParentLoop pf updates = some out →
      ∀ e ∈ updates, (∀ (r : String) (j : Nat) (t : Tok) (rest : List Tok),
        path_to_tokens e.field ≠ some (Tok.key r :: Tok.idx j :: t :: rest)) →
      e ∈ out := by
  intro updates
  induction updates with
  | nil =>
    intro out h e he _
    exact absurd he (List.not_mem_nil _)
  | cons e0 rest ih =>
    intro out h e he hnc
    rw [pruneParentLoop] at h
    split at h
    · exact Option.noConfusion h
    · rename_i ts heq
      cases hrec : pruneParentLoop pf rest with
      | none =>
        rw [hrec] at h
        exact Option.noConfusion h
      | some out2 =>
        rw [hrec] at h
        simp only [] at h
        rcases List.mem_cons.mp he with rfl | he2
        · split at h
          · rename_i r j t' ts'
            exact absurd heq (hnc r j t' ts')
          · injection h with h
            rw [← h]
            exact List.mem_cons_self _ _
        · have hin := ih hrec e he2 hnc
          split at h
          · rename_i r j t' ts'
            by_cases hc : r ∈ LIST_FIELDS ∧ canonicalIdx r j ∈ pf
            · rw [if_pos hc] at h
              injection h with h
              rw [← h]
              exact hin
            · rw [if_neg hc] at h
              injection h with h
              rw [← h]
              exact List.mem_cons_of_mem _ hin
          · injection h with h
            rw [← h]
            exact List.mem_cons_of_mem _ hin

/-- `_prune_parent_index_updates` output is a subset of its input. -/
theorem pruneParent_sub {updates out : List Edit}
    (h : prune_parent_index_updates updates = some out) :
    ∀ e ∈ out, e ∈ updates := by
  rw [prune_parent_index_updates] at h
  cases hpf : parentFieldsLoop updates [] with
  | none =>
    rw [hpf] at h
    exact Option.noConfusion h
  | some pf =>
    rw [hpf] at h
    simp only [] at h
    by_cases hemp : pf.isEmpty = true
    · rw [if_pos hemp] at h
      injection h with h
      rw [← h]
      exact fun e he => he
    · rw [if_neg hemp] at h
      exact pruneParentLoop_sub h

/-- `_prune_parent_index_updates` keeps every edit that is not shaped
`root[i].<rest>`. -/
theorem pruneParent_keep {updates out : List Edit}
    (h : prune_parent_index_updates updates = some out) :
    ∀ e ∈ updates, (∀ (r : String) (j : Nat) (t : Tok) (rest : List Tok),
      path_to_tokens e.field ≠ some (Tok.key r :: Tok.idx j :: t :: rest)) →
    e ∈ out := by
  rw [prune_parent_index_updates] at h
  cases hpf : parentFieldsLoop updates [] with
  | none =>
    rw [hpf] at h
    exact Option.noConfusion h
  | some pf =>
    rw [hpf] at h
    simp only [] at h
    by_cases hemp : pf.isEmpty = true
    · rw [if_pos hemp] at h
      injection h with h
      rw [← h]
      exact fun e he _ => he
    · rw [if_neg hemp] at h
      exact pruneParentLoop_keep h

/-- The coalescer keeps every pass-through edit of its input. -/
theorem coalesce_keeps {u out : List Edit}
    (h : coalesce_indexed_children u = some out) :
    ∀ e ∈ u, keptB e = true → e ∈ out := by
  rw [coalesce_indexed_children] at h
  cases hpf : parentFieldsLoop u [] with
  | none =>
    rw [hpf] at h
    exact Option.noConfusion h
  | some pf =>
    rw [hpf] at h
    simp only [] at h
    cases hcl : coalesceLoop pf u [] [] with
    | none =>
      rw [hcl] at h
      exact Option.noConfusion h
    | some gk =>
      obtain ⟨g', k'⟩ := gk
      rw [hcl] at h
      simp only [] at h
      injection h with h
      intro e he hkb
      rw [← h]
      refine List.mem_append_left _ ?_
      rw [coalesceLoop_kept pf u [] [] hcl, List.nil_append]
      exact List.mem_filter.mpr ⟨he, hkb⟩

/-- No output of the coalescer is an item-field edit `S[j].<rest>` of a
list section: such edits are either folded into a synthesized
whole-item edit or suppressed. -/
theorem coalesce_no_children {u out : List Edit}
    (h : coalesce_indexed_children u = some out) :
    ∀ e' ∈ out, ∀ (S : String) (j : Nat) (t : Tok) (rest : List Tok),
      S ∈ LIST_FIELDS →
      path_to_tokens e'.field ≠ some (Tok.key S :: Tok.idx j :: t :: rest) := by
  rw [coalesce_indexed_children] at h
  cases hpf : parentFieldsLoop u [] with
  | none =>
    rw [hpf] at h
    exact Option.noConfusion h
  | some pf =>
    rw [hpf] at h
    simp only [] at h
    cases hcl : coalesceLoop pf u [] [] with
    | none =>
      rw [hcl] at h
      exact Option.noConfusion h
    | some gk =>
      obtain ⟨g', k'⟩ := gk
      rw [hcl] at h
      simp only [] at h
      injection h with h
      intro e' he' S j t rest hS hcontra
      rw [← h] at he'
      rcases List.mem_append.mp he' with hk | hg
      · have hk2 := coalesceLoop_kept pf u [] [] hcl
        rw [hk2, List.nil_append] at hk
        have hkb := (List.mem_filter.mp hk).2
        simp [keptB, hcontra, hS] at hkb
      · obtain ⟨g, hgmem, hgeq⟩ := List.mem_map.mp hg
        obtain ⟨⟨r', j'⟩, m'⟩ := g
        rcases coalesceLoop_keys pf u [] [] hcl _ hgmem with h0 | ⟨hwk', _⟩
        · simp at h0
        · have hf : e'.field = canonicalIdx r' j' := by rw [← hgeq]
          rw [hf, path_to_tokens_canonicalIdx hwk' j'] at hcontra
          injection hcontra with hcontra
          injection hcontra with _ hcontra
          injection hcontra with _ hcontra
          exact List.noConfusion hcontra

/-- C1: parent-vs-child precedence.  For every batch containing a
whole-item edit on the canonical field `R[i]` of a list section `R`,
the full pipeline (legacy expansion, root pruning, alias/JSON mapping,
coalescing, parent pruning) outputs no edit shaped `R[j].<rest>` and
keeps the whole-item edit with its JSON-parsed value, whatever the
batch order; concretely, `[experience[0] = {role: "Eng", company:
"Acme"}, experience[0].role = "Senior Eng"]` resolves in either order
to only the `experience[0]` edit surviving, whose value carries
`role == "Eng"`. -/
theorem c1_parent_vs_child_precedence :
    (∀ (updates out : List Edit) (p : Edit) (R : String) (i : Nat),
      pipelineEdits updates = some out →
      p ∈ updates → p.field = canonicalIdx R i → R ∈ LIST_FIELDS →
      ((∀ e' ∈ out, ∀ (j : Nat) (t : Tok) (rest : List Tok),
          path_to_tokens e'.field ≠ some (Tok.key R :: Tok.idx j :: t :: rest)) ∧
        Edit.mk (canonicalIdx R i) (maybe_parse_json p.value) p.expectedCurrent ∈ out)) ∧
    pipelineEdits
        [Edit.mk "experience[0]"
            (.obj [("role", .str "Eng"), ("company", .str "Acme")]) (.str ""),
         Edit.mk "experience[0].role" (.str "Senior Eng") (.str "")]
      = some [Edit.mk "experience[0]"
          (.obj [("role", .str "Eng"), ("company", .str "Acme")]) (.str "")] ∧
    pipelineEdits
        [Edit.mk "experience[0].role" (.str "Senior Eng") (.str ""),
         Edit.mk "experience[0]"
            (.obj [("role", .str "Eng"), ("company", .str "Acme")]) (.str "")]
      = some [Edit.mk "experience[0]"
          (.obj [("role", .str "Eng"), ("company", .str "Acme")]) (.str "")] ∧
    valGet (.obj [("role", .str "Eng"), ("company", .str "Acme")]) "role"
      = some (.str "Eng") := by
  constructor
  · intro updates out p R i hpl hp hpf hR
    have hwk : wellKeyB R = true := by
      have hR' := hR
      simp only [LIST_FIELDS, List.mem_cons, List.not_mem_nil, or_false] at hR'
      rcases hR' with rfl | rfl | rfl | rfl | rfl <;> decide
    have hptoks : path_to_tokens p.field = some [Tok.key R, Tok.idx i] := by
      rw [hpf]
      exact path_to_tokens_canonicalIdx hwk i
    rw [pipelineEdits] at hpl
    cases hu1 : expand_contact_legacy_updates updates with
    | none =>
      rw [hu1] at hpl
      exact Option.noConfusion hpl
    | some u1 =>
      rw [hu1] at hpl
      simp only [] at hpl
      cases hu2 : prune_root_updates_with_children u1 with
      | none =>
        rw [hu2] at hpl
        exact Option.noConfusion hpl
      | some u2 =>
        rw [hu2] at hpl
        simp only [] at hpl
        cases hu4 : coalesce_indexed_children (u2.map (fun e =>
            Edit.mk (map_field_aliases e.field) (maybe_parse_json e.value)
              e.expectedCurrent)) with
        | none =>
          rw [hu4] at hpl
          exact Option.noConfusion hpl
        | some u4 =>
          rw [hu4] at hpl
          constructor
          · intro e' he' j t rest
            exact coalesce_no_children hu4 e' (pruneParent_sub hpl e' he') R j t rest hR
          · have hp1 : p ∈ u1 :=
              expand_keeps hu1 p hp (by simp [legacyOf, hptoks, legacyKeyOf])
            have hp2 : p ∈ u2 := by
              rw [prune_root_filter hu2]
              refine List.mem_filter.mpr ⟨hp1, ?_⟩
              simp [dropRootB, hptoks]
            have hfp : (fun e => Edit.mk (map_field_aliases e.field)
                (maybe_parse_json e.value) e.expectedCurrent) p
                = Edit.mk (canonicalIdx R i) (maybe_parse_json p.value)
                    p.expectedCurrent := by
              simp only []
              rw [hpf, map_field_aliases_canonical]
            have hp3 : Edit.mk (canonicalIdx R i) (maybe_parse_json p.value)
                p.expectedCurrent ∈ u2.map (fun e =>
                  Edit.mk (map_field_aliases e.field) (maybe_parse_json e.value)
                    e.expectedCurrent) := by
              rw [← hfp]
              exact List.mem_map_of_mem _ hp2
            have hqtoks : path_to_tokens (canonicalIdx R i)
                = some [Tok.key R, Tok.idx i] := path_to_tokens_canonicalIdx hwk i
            have hp4 : Edit.mk (canonicalIdx R i) (maybe_parse_json p.value)
                p.expectedCurrent ∈ u4 := by
              refine coalesce_keeps hu4 _ hp3 ?_
              simp [keptB, hqtoks]
            refine pruneParent_keep hpl _ hp4 ?_
            intro r j t rest
            show path_to_tokens (canonicalIdx R i) ≠ _
            rw [hqtoks]
            intro hc
            injection hc with hc
            injection hc with _ hc
            injection hc with _ hc
            exact List.noConfusion hc
  · exact ⟨rfl, rfl, rfl⟩

/-- Witness for C1 at the spec's concrete two-edit batch. -/
theorem c1_parent_vs_child_precedence_witness :
    Edit.mk (canonicalIdx "experience" 0)
        (maybe_parse_json (Val.obj [("role", .str "Eng"), ("company", .str "Acme")]))
        (Val.str "")
      ∈ [Edit.mk "experience[0]"
          (.obj [("role", .str "Eng"), ("company", .str "Acme")]) (.str "")] :=
  (c1_parent_vs_child_precedence.1
    [Edit.mk "experience[0]"
        (.obj [("role", .str "Eng"), ("company", .str "Acme")]) (.str ""),
     Edit.mk "experience[0].role" (.str "Senior Eng") (.str "")]
    [Edit.mk "experience[0]"
        (.obj [("role", .str "Eng"), ("company", .str "Acme")]) (.str "")]
    (Edit.mk "experience[0]"
        (.obj [("role", .str "Eng"), ("company", .str "Acme")]) (.str ""))
    "experience" 0
    (by rfl) (List.mem_cons_self _ _) (by rfl) (by decide)).2

end Portfolio
